import Mathlib

/-!
Verification of the `BitVector` container of
`src/trace_processor/containers/bit_vector.cc` (and the set-bits iterator of
`bit_vector_iterators.cc`) against its natural-language specification.

The data layout: a `BitVector` owns a list of 64-bit words, grouped into
blocks of 8 words (512 bits), together with a per-block cumulative count
array `counts` (`counts[i]` = number of set bits in blocks `[0, i)`) and a
logical bit count `size`.

Machine integers are modelled as `Nat` with explicit `% 2 ^ 64` at the
places where the C++ computation can wrap; values read from well-formed
vectors are bounded by the `WF` predicate below.

Functions that live in the (absent) header `bit_vector.h` or
`bit_vector_iterators.h` — the accessors `IsSet`, `CountSetBits`, the
`Builder`, the block constants, `PERFETTO_POPCOUNT`, `Block::ClearAfter`,
`BitVector::Set` and the iterator's `Next` — are modelled from the spec and
are marked `Modelled from the spec:` in their doc comments.
-/

set_option linter.unusedVariables false
set_option maxRecDepth 8192

namespace Perfetto

/-- Modelled from the spec: `PERFETTO_POPCOUNT` (`__builtin_popcountll`) —
the number of set bits of a 64-bit word. -/
def popcount64 (w : Nat) : Nat := (List.range 64).countP (fun i => w.testBit i)

/-- Bit of a word sequence at global bit position `p` (64 bits per word, bit 0
of a word is the lowest global position of that word), `false` past the end. -/
def wordsBit (ws : List Nat) (p : Nat) : Bool := (ws.getD (p / 64) 0).testBit (p % 64)

/-- The `BitVector` representation (fields `words_`, `counts_`, `size_`).
Words are grouped into blocks of 8 words (512 bits); `counts[i]` caches the
number of set bits in blocks `[0, i)`. -/
structure BitVector where
  words : List Nat
  counts : List Nat
  size : Nat
deriving DecidableEq

/-- The default-constructed, empty `BitVector`. -/
def BitVector.empty : BitVector := ⟨[], [], 0⟩

/-- Modelled from the spec: `BitVector::WordCount(size)` (header) — number of
words needed to hold `size` bits. -/
def wordCount (size : Nat) : Nat := (size + 63) / 64

/-- Modelled from the spec: `BitVector::BlockCount(size)` (header) — number of
512-bit blocks needed to hold `size` bits. -/
def blockCount (size : Nat) : Nat := (size + 511) / 512

/-- Modelled from the spec: `ConstBlock::CountSetBits()` — popcount over the
8 words of block `b`. -/
def blockPop (ws : List Nat) (b : Nat) : Nat :=
  ((List.range 8).map (fun j => popcount64 (ws.getD (8 * b + j) 0))).sum

/-- Modelled from the spec: `BitVector::CountSetBits(end)` (header) — the
prefix count of set bits strictly before index `end`: `counts[block(end-1)]`
plus the popcount of that block's bits up to `end-1` inclusive. -/
def BitVector.countSetBitsUpTo (bv : BitVector) (e : Nat) : Nat :=
  if e = 0 then 0
  else
    bv.counts.getD ((e - 1) / 512) 0 +
      (((List.range ((e - 1) % 512 / 64)).map
          (fun j => popcount64 (bv.words.getD (8 * ((e - 1) / 512) + j) 0))).sum +
        popcount64 (bv.words.getD (8 * ((e - 1) / 512) + (e - 1) % 512 / 64) 0 %
          2 ^ ((e - 1) % 64 + 1)))

/-- Modelled from the spec: `BitVector::CountSetBits()` (header) — total
number of set bits, the prefix count at `size`. -/
def BitVector.countSetBits (bv : BitVector) : Nat := bv.countSetBitsUpTo bv.size

/-- Modelled from the spec: `BitVector::IsSet(idx)` (header) — test the bit at
a global index via address decomposition. -/
def BitVector.isSet (bv : BitVector) (i : Nat) : Bool := wordsBit bv.words i

/-- Representation invariants maintained by the C++ class: exact block
sizing, `words`/`counts` length relation, 32/64-bit value bounds, the
cumulative-count property of `counts`, and zero trailing padding. -/
def WF (bv : BitVector) : Prop :=
  bv.counts.length = blockCount bv.size ∧
  bv.words.length = 8 * bv.counts.length ∧
  bv.size < 2 ^ 32 ∧
  (∀ w ∈ bv.words, w < 2 ^ 64) ∧
  (∀ c ∈ bv.counts, c < 2 ^ 32) ∧
  bv.counts.getD 0 0 = 0 ∧
  (∀ i < bv.counts.length, 0 < i →
    bv.counts.getD i 0 = bv.counts.getD (i - 1) 0 + blockPop bv.words (i - 1)) ∧
  (∀ p < 64 * bv.words.length, bv.size ≤ p → wordsBit bv.words p = false)

instance : DecidablePred WF := fun bv => by unfold WF; infer_instance

/-! ## Shared helpers for the count-recomputation loops

`Or`, `And`, `UpdateSetBits` and `Builder::Build` all end with the same
sequential pass `counts[i] = counts[i-1] + popcount(block i-1)` starting from
the existing `counts[0]`. -/

/-- Sum of the popcounts of blocks `[0, n)`. -/
def sumPops (ws : List Nat) : Nat → Nat
  | 0 => 0
  | i + 1 => sumPops ws i + blockPop ws i

/-- Result of the sequential recomputation loop
`for i in [1, n): counts[i] = counts[i-1] + popcount(block i-1)` keeping the
existing `counts[0] = c0`. -/
def recountsKeepHead (c0 : Nat) (ws : List Nat) (n : Nat) : List Nat :=
  (List.range n).map (fun i => c0 + sumPops ws i)

/-- Map with the element index, used to mirror the indexed `for` loops. -/
def mapWithIdx (f : Nat → Nat → Nat) : Nat → List Nat → List Nat
  | _, [] => []
  | i, w :: ws => f i w :: mapWithIdx f (i + 1) ws

/-! ## PDEP (bit-scatter) -/

/-- Loop body of `PdepSlow`: `for (uint64_t bb = 1; mask; bb += bb)`, clearing
the lowest set bit of `mask` each round and depositing the corresponding bit
of `word` at its position.  Structural fuel bounds the iteration count; the
caller passes fuel 64, enough for any `mask < 2 ^ 64`. -/
def pdepLoop (word : Nat) : Nat → Nat → Nat → Nat → Nat
  | 0, _, _, result => result
  | fuel + 1, mask, bb, result =>
    if mask = 0 then result
    else
      pdepLoop word fuel (mask &&& (mask - 1)) (bb + bb)
        (if word &&& bb ≠ 0 then result ||| (mask &&& (2 ^ 64 - mask)) else result)

/-- `PdepSlow(word, mask)`: software emulation of the x64 PDEP instruction,
with the early outs of the source (`word == 0` and all-ones `mask`). -/
def pdepSlow (word mask : Nat) : Nat :=
  if word = 0 ∨ mask = 2 ^ 64 - 1 then word else pdepLoop word 64 mask 1 0

/-- `Pdep(word, mask)`: the x64 build uses the hardware `_pdep_u64`, whose
semantics the software loop emulates; both are modelled by `pdepSlow`. -/
def pdep (word mask : Nat) : Nat := pdepSlow word mask

/-! ## UpdateSetBits -/

/-- Rolling state of the `UpdateSetBits` word loop: the unread suffix of
`update`'s words and the buffered `update_unused_bits` /
`unused_bits_count`. -/
structure UpdSt where
  upd : List Nat
  unusedBits : Nat
  unusedCount : Nat
deriving DecidableEq

/-- One iteration of the `UpdateSetBits` word loop for the word `current`.
`none` models the `PERFETTO_CHECK(unused_bits_count <= 64)` abort. -/
def updStep (st : UpdSt) (current : Nat) : Option (Nat × UpdSt) :=
  if current = 0 then some (current, st)
  else
    let p := popcount64 current
    if p ≤ st.unusedCount then
      let st2 : UpdSt :=
        ⟨st.upd, if p = 64 then 0 else st.unusedBits >>> p, st.unusedCount - p⟩
      if st2.unusedCount ≤ 64 then some (pdep st.unusedBits current, st2) else none
    else
      let next := st.upd.headD 0
      let updForCurrent := st.unusedBits ||| ((next <<< st.unusedCount) % 2 ^ 64)
      let used := p - st.unusedCount
      let st2 : UpdSt :=
        ⟨st.upd.tail, if used = 64 then 0 else next >>> used, 64 - used⟩
      if st2.unusedCount ≤ 64 then some (pdep updForCurrent current, st2) else none

/-- The `UpdateSetBits` word loop over the processed prefix of `this`'s
words. -/
def updLoop : UpdSt → List Nat → Option (List Nat × UpdSt)
  | st, [] => some ([], st)
  | st, w :: ws =>
    match updStep st w with
    | none => none
    | some (w2, st2) =>
      match updLoop st2 ws with
      | none => none
      | some (ws2, st3) => some (w2 :: ws2, st3)

/-- `BitVector::UpdateSetBits(update)`: `none` models a `PERFETTO_CHECK`
abort (which the theorems below prove unreachable).  The degenerate rule
resets `*this` to the empty `BitVector`; otherwise the word loop runs over
the first `WordCount(size)` words, consuming bits of `update`'s words, and
`counts` is recomputed by the sequential prefix pass. -/
def BitVector.updateSetBits (bv update : BitVector) : Option BitVector :=
  if update.countSetBits = 0 ∨ bv.countSetBits = 0 then some BitVector.empty
  else
    let processed := bv.words.take (wordCount bv.size)
    let updWords := update.words.take (wordCount update.size)
    match updLoop ⟨updWords, 0, 0⟩ processed with
    | none => none
    | some (ws2, _) =>
      let words2 := ws2 ++ bv.words.drop (wordCount bv.size)
      some ⟨words2, recountsKeepHead (bv.counts.getD 0 0) words2 bv.counts.length, bv.size⟩

/-- Modelled from the spec: the `PERFETTO_DCHECK(update.size() <=
CountSetBits())` precondition of `UpdateSetBits` fails fast (spec §7); the
degenerate zero-popcount rule is checked first, as in the source. -/
def BitVector.updateSetBitsChecked (bv update : BitVector) : Option BitVector :=
  if update.countSetBits = 0 ∨ bv.countSetBits = 0 then some BitVector.empty
  else if update.size ≤ bv.countSetBits then bv.updateSetBits update
  else none

/-! ## Or / Not -/

/-- `BitVector::Or(sec)`: `none` models the `PERFETTO_CHECK(size_ ==
sec.size())` abort; otherwise word-wise OR followed by the sequential
`counts` recomputation. -/
def BitVector.or (bv sec : BitVector) : Option BitVector :=
  if bv.size ≠ sec.size then none
  else
    let ws := mapWithIdx (fun i w => w ||| sec.words.getD i 0) 0 bv.words
    some ⟨ws, recountsKeepHead (bv.counts.getD 0 0) ws bv.counts.length, bv.size⟩

/-- Modelled from the spec: `BitWord::ClearAfter(idx)` — keep bits `0..idx`
of a word, zero the bits strictly after `idx`. -/
def clearAfterWord (w : Nat) (b : Nat) : Nat := w &&& (2 ^ (b + 1) - 1)

/-- Modelled from the spec: `Block::ClearAfter(offset)` — within block `blk`,
zero every bit at intra-block position strictly greater than `off`
(words before the offset's word are kept, the offset's word is masked, later
words of the block are zeroed; words outside the block are untouched). -/
def clearAfterInBlock (ws : List Nat) (blk off : Nat) : List Nat :=
  mapWithIdx (fun i w =>
    if i < 8 * blk + off / 64 then w
    else if i = 8 * blk + off / 64 then clearAfterWord w (off % 64)
    else if i < 8 * (blk + 1) then 0
    else w) 0 ws

/-- `BitVector::Not()`: complement every word (`~w`, i.e. `w ^^^ (2^64-1)` on
64-bit values), `ClearAfter` on the last block to restore the trailing
padding, and set `counts[i] = 512 * i - counts[i]` for `i ≥ 1`. -/
def BitVector.not (bv : BitVector) : BitVector :=
  if bv.size = 0 then bv
  else
    let ws := bv.words.map (fun w => w ^^^ (2 ^ 64 - 1))
    let ws2 := clearAfterInBlock ws ((bv.size - 1) / 512) ((bv.size - 1) % 512)
    ⟨ws2, mapWithIdx (fun i c => if i = 0 then c else 512 * i - c) 0 bv.counts, bv.size⟩

/-! ## Resize -/

/-- `std::vector::resize(n)` with value-initialised (zero) filler. -/
def listResize (l : List Nat) (n : Nat) : List Nat :=
  l.take n ++ List.replicate (n - l.length) 0

/-- Set the bit at global position `p` of a word list. -/
def setBitAt (ws : List Nat) (p : Nat) : List Nat :=
  ws.set (p / 64) (ws.getD (p / 64) 0 ||| 2 ^ (p % 64))

/-- Modelled from the spec: `BitVector::Set(start, end)` (header) — set every
bit in the inclusive index range; here `setRange ws lo n` sets the `n` bits
at positions `lo, lo+1, …, lo+n-1`. -/
def setRange : List Nat → Nat → Nat → List Nat
  | ws, _, 0 => ws
  | ws, lo, n + 1 => setRange (setBitAt ws lo) (lo + 1) n

/-- The filler-grow count loop of `Resize`: starting at index `i`, write `sc`
then advance by a full block of set bits (`sc + 512`) per entry, `n`
entries. -/
def fillerCounts : List Nat → Nat → Nat → Nat → List Nat
  | cs, _, 0, _ => cs
  | cs, i, n + 1, sc => fillerCounts (cs.set i sc) (i + 1) n (sc + 512)

/-- The non-filler grow count loop of `Resize`: write the constant `c` into
entries `i, i+1, …, i+n-1`. -/
def constCounts : List Nat → Nat → Nat → Nat → List Nat
  | cs, _, 0, _ => cs
  | cs, i, n + 1, c => constCounts (cs.set i c) (i + 1) n c

/-- `BitVector::Resize(new_size, filler)`, translated branch by branch: the
no-op and release-all fast paths, the array resizes, and the three cases
(grow with filler, grow with zeros, shrink with `ClearAfter`).  The
`CountSetBits()` calls happen, as in the source, on the intermediate state
whose arrays are already resized but whose `size_` is still the old size. -/
def BitVector.resize (bv : BitVector) (newSize : Nat) (filler : Bool) : BitVector :=
  if newSize = bv.size then bv
  else if newSize = 0 then ⟨[], [], 0⟩
  else
    let lastBlk := (newSize - 1) / 512
    let oldBlocks := bv.counts.length
    let newBlocks := lastBlk + 1
    let ws := listResize bv.words (8 * newBlocks)
    let cs := listResize bv.counts newBlocks
    if bv.size < newSize then
      if filler then
        let ws2 := setRange ws bv.size (newSize - bv.size)
        let sb := bv.size / 512
        let cib := 512 * (sb + 1) - bv.size
        let sc := BitVector.countSetBitsUpTo ⟨ws2, cs, bv.size⟩ bv.size + cib
        ⟨ws2, fillerCounts cs (sb + 1) (lastBlk - sb) sc, newSize⟩
      else
        let c := BitVector.countSetBitsUpTo ⟨ws, cs, bv.size⟩ bv.size
        ⟨ws, if oldBlocks < newBlocks then constCounts cs oldBlocks (newBlocks - oldBlocks) c
             else cs, newSize⟩
    else
      ⟨clearAfterInBlock ws lastBlk ((newSize - 1) % 512), cs, newSize⟩

/-! ## Builder and IntersectRange -/

/-- Modelled from the spec: `BitVector::Builder` (header) — a staging area
with the declared final `size`, a zero-initialised word array sized for it,
and a write cursor `cur` (which starts at the `skip` offset for sub-range
construction, so bits before `skip` stay 0). -/
structure Builder where
  size : Nat
  words : List Nat
  cur : Nat
deriving DecidableEq

/-- Modelled from the spec: construct a `Builder` with final size `size` and
starting offset `skip`. -/
def Builder.mk2 (size skip : Nat) : Builder :=
  ⟨size, List.replicate (8 * blockCount size) 0, skip⟩

/-- Modelled from the spec: `Builder::BitsUntilWordBoundaryOrFull()` — how
many single bits must be appended before the cursor reaches a 64-bit word
boundary (or the declared size, whichever is first). -/
def Builder.bitsUntilWordBoundaryOrFull (b : Builder) : Nat :=
  min (b.size - b.cur) ((64 - b.cur % 64) % 64)

/-- Modelled from the spec: `Builder::BitsInCompleteWordsUntilFull()` — the
number of bits in whole 64-bit words between the cursor and the declared
size. -/
def Builder.bitsInCompleteWordsUntilFull (b : Builder) : Nat :=
  (b.size - b.cur) / 64 * 64

/-- Modelled from the spec: `Builder::BitsUntilFull()` — remaining bits until
the declared size. -/
def Builder.bitsUntilFull (b : Builder) : Nat := b.size - b.cur

/-- Modelled from the spec: `Builder::Append(bit)` — write one bit at the
cursor (legal only while the builder is not full; a full builder is left
unchanged, modelling the debug-checked precondition). -/
def Builder.append (b : Builder) (x : Bool) : Builder :=
  if b.cur < b.size then
    ⟨b.size, if x then setBitAt b.words b.cur else b.words, b.cur + 1⟩
  else b

/-- Modelled from the spec: `Builder::AppendWord(word)` — bulk-copy one whole
word at a word-aligned cursor. -/
def Builder.appendWord (b : Builder) (w : Nat) : Builder :=
  ⟨b.size, b.words.set (b.cur / 64) w, b.cur + 64⟩

/-- Modelled from the spec: `Builder::Build()` — the single O(blocks) rank
pass producing the finished `BitVector`. -/
def Builder.build (b : Builder) : BitVector :=
  ⟨b.words, recountsKeepHead 0 b.words (blockCount b.size), b.size⟩

/-- The bit-by-bit head/tail fill loops of `IntersectRange`: append the `n`
bits of `bv` at indices `start, start+1, …`. -/
def appendBits (b : Builder) (bv : BitVector) : Nat → Nat → Builder
  | _, 0 => b
  | start, n + 1 => appendBits (b.append (bv.isSet start)) bv (start + 1) n

/-- The whole-word body loop of `IntersectRange`: append `n` whole words of
`ws` starting at word index `k`. -/
def appendWords (b : Builder) (ws : List Nat) : Nat → Nat → Builder
  | _, 0 => b
  | k, n + 1 => appendWords (b.appendWord (ws.getD k 0)) ws (k + 1) n

/-- `BitVector::IntersectRange(range_start, range_end)`: empty result when
`range_start` is at or past the clamped end; otherwise the three-phase
builder fill (unaligned head bit-by-bit, whole words, unaligned tail). -/
def BitVector.intersectRange (bv : BitVector) (rangeStart rangeEnd : Nat) : BitVector :=
  let endIdx := min rangeEnd bv.size
  if rangeStart ≥ endIdx then BitVector.empty
  else
    let b0 := Builder.mk2 endIdx rangeStart
    let front := b0.bitsUntilWordBoundaryOrFull
    let b1 := appendBits b0 bv rangeStart front
    let curIndex := rangeStart + front
    let curWords := curIndex / 64
    let fullWords := b1.bitsInCompleteWordsUntilFull / 64
    let b2 := appendWords b1 bv.words curWords fullWords
    let b3 := appendBits b2 bv (curIndex + fullWords * 64) b2.bitsUntilFull
    b3.build

/-! ## SetBitsIterator -/

/-- Modelled from the spec: the iterator's fixed batch capacity (spec §4.4, a
small fixed number of entries). -/
def kBatchSize : Nat := 128

/-- The scan loop of `SetBitsIterator::ReadSetBitBatch(start_idx)`: walk `i`
upward from `start`; `rank` tracks `set_bit_count_until_i` (the number of set
bits strictly before `i`).  A block whose end-of-block prefix count equals
`rank` is skipped whole; a found set bit is appended to the batch, returning
early once the batch slot `kBatchSize - 1` is filled.  `fuel` is structural
and dominates the iteration count (the caller passes `bv.size`; `i` strictly
increases each round). -/
def readBatchGo (bv : BitVector) (cnt : Nat) : Nat → Nat → Nat → List Nat → List Nat
  | 0, _, _, acc => acc
  | fuel + 1, i, rank, acc =>
    if i < bv.size then
      if (if i / 512 = bv.counts.length - 1 then cnt else bv.counts.getD (i / 512 + 1) 0) =
          rank then
        readBatchGo bv cnt fuel (512 * (i / 512 + 1)) rank acc
      else if bv.isSet i then
        if rank % kBatchSize = kBatchSize - 1 then acc ++ [i]
        else readBatchGo bv cnt fuel (i + 1) (rank + 1) (acc ++ [i])
      else readBatchGo bv cnt fuel (i + 1) rank acc
    else acc

/-- `SetBitsIterator::ReadSetBitBatch(start_idx)` with `set_bit_count_ = cnt`
and `set_bit_index_ = rank` (a multiple of the batch size): the list of
indices written to the batch. -/
def readBatch (bv : BitVector) (cnt rank start : Nat) : List Nat :=
  readBatchGo bv cnt bv.size start rank []

/-- Modelled from the spec: draining the iterator (`Next()` until exhausted):
consume the current batch; when a full batch is exhausted, read the next one
starting just past the last consumed position.  `fuel` is structural (each
round advances `rank` by a full batch). -/
def drainGo (bv : BitVector) (cnt : Nat) : Nat → Nat → Nat → List Nat
  | 0, _, _ => []
  | fuel + 1, rank, start =>
    if rank + kBatchSize < cnt then
      readBatch bv cnt rank start ++
        drainGo bv cnt fuel (rank + kBatchSize)
          ((readBatch bv cnt rank start).getLastD 0 + 1)
    else readBatch bv cnt rank start

/-- `BitVector::GetSetBitIndices()`: materialise all set-bit positions by
fully draining a `SetBitsIterator` (which reads its first batch only when the
vector has at least one set bit). -/
def BitVector.getSetBitIndices (bv : BitVector) : List Nat :=
  if bv.countSetBits = 0 then []
  else drainGo bv bv.countSetBits (bv.countSetBits + 1) 0 0

/-! ## Serialization -/

/-- The decoded form of `protos::pbzero::SerializedColumn::BitVector`: the
`size` field and the optional raw little-endian byte blobs of `counts` and
`words`. -/
structure SerializedBV where
  size : Nat
  countsBytes : Option (List Nat)
  wordsBytes : Option (List Nat)
deriving DecidableEq

/-- Little-endian byte image of a `uint32_t` value. -/
def natToBytes4 (v : Nat) : List Nat :=
  [v % 256, v / 256 % 256, v / 2 ^ 16 % 256, v / 2 ^ 24 % 256]

/-- Little-endian byte image of a `uint64_t` value. -/
def natToBytes8 (v : Nat) : List Nat :=
  [v % 256, v / 256 % 256, v / 2 ^ 16 % 256, v / 2 ^ 24 % 256,
   v / 2 ^ 32 % 256, v / 2 ^ 40 % 256, v / 2 ^ 48 % 256, v / 2 ^ 56 % 256]

/-- `BitVector::Serialize(msg)`: sets `size`, and the raw byte images of
`counts` (4 bytes per entry) and `words` (8 bytes per entry) only when the
arrays are non-empty. -/
def BitVector.serialize (bv : BitVector) : SerializedBV :=
  ⟨bv.size,
   if bv.counts.isEmpty then none else some (bv.counts.flatMap natToBytes4),
   if bv.words.isEmpty then none else some (bv.words.flatMap natToBytes8)⟩

/-- Decode little-endian `uint32_t` values from a byte stream; a trailing
partial group of fewer than 4 bytes is dropped, mirroring the
`resize(size / sizeof(uint32_t))` truncation.  (For a length that is not a
multiple of 4 the C++ `memcpy` additionally overruns the destination
buffer; the embedding keeps the in-bounds prefix.) -/
def bytesToU32s : List Nat → List Nat
  | b0 :: b1 :: b2 :: b3 :: rest =>
    (b0 + 256 * b1 + 2 ^ 16 * b2 + 2 ^ 24 * b3) :: bytesToU32s rest
  | _ => []

/-- Decode little-endian `uint64_t` values from a byte stream; a trailing
partial group of fewer than 8 bytes is dropped (see `bytesToU32s`). -/
def bytesToU64s : List Nat → List Nat
  | b0 :: b1 :: b2 :: b3 :: b4 :: b5 :: b6 :: b7 :: rest =>
    (b0 + 256 * b1 + 2 ^ 16 * b2 + 2 ^ 24 * b3 + 2 ^ 32 * b4 + 2 ^ 40 * b5 +
      2 ^ 48 * b6 + 2 ^ 56 * b7) :: bytesToU64s rest
  | _ => []

/-- `BitVector::Deserialize(msg)`: overwrites `prior`'s fields in place —
`size_` from the message, each array from its byte blob when present
(`resize` to the truncated element count, then copy) and cleared when
absent.  There is no validation and no error path. -/
def deserializeInto (prior : BitVector) (msg : SerializedBV) : BitVector :=
  { size := msg.size,
    counts := match msg.countsBytes with
      | some bs => bytesToU32s bs
      | none => [],
    words := match msg.wordsBytes with
      | some bs => bytesToU64s bs
      | none => [] }

/-! ## Counting lemmas

The bridge between the cached representation (`counts`, per-block popcounts)
and the specification-level bit counts `(List.range n).countP (wordsBit ws)`. -/

theorem countP_range_add (f : Nat → Bool) (a b : Nat) :
    (List.range (a + b)).countP f =
      (List.range a).countP f + (List.range b).countP (fun i => f (a + i)) := by
  rw [List.range_add, List.countP_append, List.countP_map]
  rfl

theorem countP_range_congr {f g : Nat → Bool} (n : Nat)
    (h : ∀ i < n, f i = g i) :
    (List.range n).countP f = (List.range n).countP g := by
  apply List.countP_congr
  intro i hi
  rw [h i (List.mem_range.mp hi)]

/-- The popcount of a word truncated to its low `r` bits is the number of set
bits among positions `< r`. -/
theorem popcount64_mod (w r : Nat) (hr : r ≤ 64) :
    popcount64 (w % 2 ^ r) = (List.range r).countP (fun i => w.testBit i) := by
  unfold popcount64
  have h1 : (List.range 64).countP (fun i => (w % 2 ^ r).testBit i) =
      (List.range 64).countP (fun i => decide (i < r) && w.testBit i) := by
    apply countP_range_congr
    intro i hi
    rw [Nat.testBit_mod_two_pow]
  rw [h1]
  have h2 : 64 = r + (64 - r) := by omega
  rw [h2, countP_range_add]
  have h3 : (List.range r).countP (fun i => decide (i < r) && w.testBit i) =
      (List.range r).countP (fun i => w.testBit i) := by
    apply countP_range_congr
    intro i hi
    simp [hi]
  have h4 : (List.range (64 - r)).countP (fun i => decide (r + i < r) && w.testBit (r + i)) = 0 := by
    rw [List.countP_eq_zero]
    intro i hi
    simp
  rw [h3, h4]
  omega

/-- A span of `n` whole words starting at word index `q`: the global bit
count over it is the sum of the word popcounts. -/
theorem countP_words_span (ws : List Nat) (q : Nat) :
    ∀ n, (List.range (64 * n)).countP (fun i => wordsBit ws (64 * q + i)) =
      ((List.range n).map (fun j => popcount64 (ws.getD (q + j) 0))).sum := by
  intro n
  induction n with
  | zero => simp
  | succ n ih =>
    have h1 : 64 * (n + 1) = 64 * n + 64 := by ring
    rw [h1, countP_range_add, ih]
    conv_rhs => rw [List.range_succ]
    rw [List.map_append, List.sum_append]
    simp only [List.map_cons, List.map_nil, List.sum_cons, List.sum_nil]
    congr 1
    unfold popcount64
    apply countP_range_congr
    intro i hi
    unfold wordsBit
    have h2 : (64 * q + (64 * n + i)) / 64 = q + n := by omega
    have h3 : (64 * q + (64 * n + i)) % 64 = i := by omega
    rw [h2, h3]

/-- A block's popcount is the bit count of its 512 global positions. -/
theorem blockPop_eq_countP (ws : List Nat) (b : Nat) :
    blockPop ws b = (List.range 512).countP (fun i => wordsBit ws (512 * b + i)) := by
  have h := countP_words_span ws (8 * b) 8
  have e1 : 64 * 8 = 512 := by norm_num
  have e2 : 64 * (8 * b) = 512 * b := by ring
  rw [e1, e2] at h
  unfold blockPop
  exact h.symm

/-- Under the invariants, `counts[i]` is the number of set bits among global
positions `< 512 * i`. -/
theorem counts_prefix_eq (bv : BitVector) (h : WF bv) :
    ∀ i, i < bv.counts.length →
      bv.counts.getD i 0 = (List.range (512 * i)).countP (wordsBit bv.words) := by
  obtain ⟨hcl, hwl, hsz, hwb, hcb, hc0, hchain, hpad⟩ := h
  intro i
  induction i with
  | zero => intro _; simpa using hc0
  | succ i ih =>
    intro hi
    have h1 := hchain (i + 1) hi (Nat.succ_pos i)
    simp only [Nat.add_sub_cancel] at h1
    rw [h1, ih (by omega), blockPop_eq_countP]
    have h2 : 512 * (i + 1) = 512 * i + 512 := by ring
    rw [h2, countP_range_add]

/-- Every bit at a position at or past `size` is clear — including positions
past the allocated storage. -/
theorem wordsBit_ge_size (bv : BitVector) (h : WF bv) (p : Nat) (hp : bv.size ≤ p) :
    wordsBit bv.words p = false := by
  obtain ⟨hcl, hwl, hsz, hwb, hcb, hc0, hchain, hpad⟩ := h
  by_cases hin : p < 64 * bv.words.length
  · exact hpad p hin hp
  · unfold wordsBit
    have h1 : bv.words.length ≤ p / 64 := by omega
    rw [List.getD_eq_default _ _ h1]
    exact Nat.zero_testBit _

/-- Extending the counting range past `size` adds nothing. -/
theorem countP_range_ge_size (bv : BitVector) (h : WF bv) (n : Nat) (hn : bv.size ≤ n) :
    (List.range n).countP (wordsBit bv.words) =
      (List.range bv.size).countP (wordsBit bv.words) := by
  have h1 : n = bv.size + (n - bv.size) := by omega
  rw [h1, countP_range_add]
  have h2 : (List.range (n - bv.size)).countP (fun i => wordsBit bv.words (bv.size + i)) = 0 := by
    rw [List.countP_eq_zero]
    intro i hi
    simp only [Bool.not_eq_true]
    exact wordsBit_ge_size bv h _ (by omega)
  rw [h2]
  omega

/-- Under the invariants, the prefix count `CountSetBits(e)` is the true
number of set bits among positions `< e`, for any `e ≤ size`. -/
theorem countSetBitsUpTo_eq (bv : BitVector) (h : WF bv) (e : Nat) (he : e ≤ bv.size) :
    bv.countSetBitsUpTo e = (List.range e).countP (wordsBit bv.words) := by
  obtain ⟨hcl, hwl, hsz, hwb, hcb, hc0, hchain, hpad⟩ := h
  unfold BitVector.countSetBitsUpTo
  by_cases he0 : e = 0
  · simp [he0]
  · rw [if_neg he0]
    have hidx : (e - 1) / 512 < bv.counts.length := by
      rw [hcl]
      unfold blockCount
      omega
    have key1 := counts_prefix_eq bv
      ⟨hcl, hwl, hsz, hwb, hcb, hc0, hchain, hpad⟩ ((e - 1) / 512) hidx
    have split1 : e = 512 * ((e - 1) / 512) + (64 * ((e - 1) % 512 / 64) + ((e - 1) % 64 + 1)) := by
      omega
    have key2 := countP_words_span bv.words (8 * ((e - 1) / 512)) ((e - 1) % 512 / 64)
    have e2 : 64 * (8 * ((e - 1) / 512)) = 512 * ((e - 1) / 512) := by ring
    rw [e2] at key2
    have key3 := popcount64_mod (bv.words.getD (8 * ((e - 1) / 512) + (e - 1) % 512 / 64) 0)
      ((e - 1) % 64 + 1) (by omega)
    conv_rhs => rw [split1]
    rw [countP_range_add, countP_range_add, key1]
    congr 1
    congr 1
    · exact key2.symm
    · rw [key3]
      apply countP_range_congr
      intro i hi
      unfold wordsBit
      have q1 : (512 * ((e - 1) / 512) + (64 * ((e - 1) % 512 / 64) + i)) / 64 =
          8 * ((e - 1) / 512) + (e - 1) % 512 / 64 := by omega
      have q2 : (512 * ((e - 1) / 512) + (64 * ((e - 1) % 512 / 64) + i)) % 64 = i := by omega
      rw [q1, q2]

/-- Under the invariants, `CountSetBits()` is the true number of set bits. -/
theorem countSetBits_eq (bv : BitVector) (h : WF bv) :
    bv.countSetBits = (List.range bv.size).countP (wordsBit bv.words) :=
  countSetBitsUpTo_eq bv h bv.size (Nat.le_refl _)

/-- The same facts phrased through the `IsSet` accessor (definitionally the
same predicate as `wordsBit words`). -/
theorem countSetBits_eq_isSet (bv : BitVector) (h : WF bv) :
    bv.countSetBits = (List.range bv.size).countP bv.isSet :=
  countSetBits_eq bv h

theorem counts_prefix_eq_isSet (bv : BitVector) (h : WF bv) :
    ∀ i, i < bv.counts.length →
      bv.counts.getD i 0 = (List.range (512 * i)).countP bv.isSet :=
  counts_prefix_eq bv h

theorem isSet_ge_size (bv : BitVector) (h : WF bv) (p : Nat) (hp : bv.size ≤ p) :
    bv.isSet p = false :=
  wordsBit_ge_size bv h p hp

/-! ## Select / rank lemmas

`(List.range n).filter f` lists the `f`-positions in ascending order; its
`k`-th element is the rank-`k` position. -/

theorem select_spec (f : Nat → Bool) :
    ∀ n k, k < ((List.range n).filter f).length →
      (List.range (((List.range n).filter f).getD k 0)).countP f = k ∧
      f (((List.range n).filter f).getD k 0) = true ∧
      ((List.range n).filter f).getD k 0 < n := by
  intro n
  induction n with
  | zero => intro k hk; simp at hk
  | succ n ih =>
    intro k hk
    rw [List.range_succ, List.filter_append] at hk ⊢
    by_cases hlt : k < ((List.range n).filter f).length
    · have hg : (((List.range n).filter f) ++ (List.filter f [n])).getD k 0 =
          ((List.range n).filter f).getD k 0 := by
        rw [List.getD_append _ _ _ _ hlt]
      rw [hg]
      obtain ⟨ha, hb, hc⟩ := ih k hlt
      exact ⟨ha, hb, by omega⟩
    · have hfn : f n = true := by
        by_contra hfn
        simp only [Bool.not_eq_true] at hfn
        rw [List.filter_singleton] at hk
        simp [hfn] at hk
        omega
      rw [List.filter_singleton] at hk ⊢
      simp only [hfn, cond_true] at hk ⊢
      have hk2 : k = ((List.range n).filter f).length := by
        simp at hk
        omega
      have hg : (((List.range n).filter f) ++ [n]).getD k 0 = n := by
        rw [List.getD_append_right _ _ _ _ (by omega), hk2]
        simp
      rw [hg]
      refine ⟨?_, hfn, by omega⟩
      rw [← List.countP_eq_length_filter] at hk2
      exact hk2.symm

/-- Counting positions `q < n` that satisfy `f` and whose `f`-rank satisfies
`g` is the same as counting ranks `k < countP f` that satisfy `g`. -/
theorem countP_reindex (f g : Nat → Bool) :
    ∀ n, (List.range n).countP (fun q => f q && g ((List.range q).countP f)) =
      (List.range ((List.range n).countP f)).countP g := by
  intro n
  induction n with
  | zero => simp
  | succ n ih =>
    rw [List.range_succ, List.countP_append, List.countP_append, ih]
    by_cases hfn : f n = true
    · have h1 : List.countP (fun q => f q && g ((List.range q).countP f)) [n] =
          if g ((List.range n).countP f) then 1 else 0 := by
        simp [List.countP_cons, hfn]
      have h2 : List.countP f [n] = 1 := by simp [List.countP_cons, hfn]
      rw [h1, h2, List.range_succ, List.countP_append]
      have h3 : List.countP g [(List.range n).countP f] =
          if g ((List.range n).countP f) then 1 else 0 := by
        simp [List.countP_cons]
      rw [h3]
    · have h1 : List.countP (fun q => f q && g ((List.range q).countP f)) [n] = 0 := by
        simp [List.countP_cons, hfn]
      have h2 : List.countP f [n] = 0 := by
        simp only [Bool.not_eq_true] at hfn
        simp [List.countP_cons, hfn]
      rw [h1, h2]
      simp

end Perfetto

namespace Perfetto

/-! ## Concrete example vectors used by witnesses and counterexamples -/

/-- The spec's example vector `v = [1,0,1,1,0]` (set bits at 0, 2, 3). -/
def exV : BitVector := ⟨[13, 0, 0, 0, 0, 0, 0, 0], [0], 5⟩

/-- The `UpdateSetBits` example: `this` of size 6 with set bits {1,3,4}. -/
def exA : BitVector := ⟨[26, 0, 0, 0, 0, 0, 0, 0], [0], 6⟩

/-- The `UpdateSetBits` example update vector `[0,1,1]` (set bits at 1, 2). -/
def exUpd : BitVector := ⟨[6, 0, 0, 0, 0, 0, 0, 0], [0], 3⟩

/-- An update vector of size 3 with no set bits (degenerate rule input). -/
def exUpdZero : BitVector := ⟨[0, 0, 0, 0, 0, 0, 0, 0], [0], 3⟩

/-- An update vector of size 4 (more than `exV`'s 3 set bits). -/
def exUpdBig : BitVector := ⟨[15, 0, 0, 0, 0, 0, 0, 0], [0], 4⟩

/-- A one-bit update vector (size 1, bit 0 set): exercises the implicit
zero-padding of C10 with `update.size < CountSetBits()`. -/
def exUpdSmall : BitVector := ⟨[1, 0, 0, 0, 0, 0, 0, 0], [0], 1⟩

/-- A block-aligned vector: size 512 with a single set bit at index 511. -/
def exAligned : BitVector := ⟨[0, 0, 0, 0, 0, 0, 0, 2 ^ 63], [0], 512⟩

/-- A two-block vector: size 600 with set bits at 5, 100, 515. -/
def exTwoBlocks : BitVector :=
  ⟨[2 ^ 5, 2 ^ 36, 0, 0, 0, 0, 0, 0, 2 ^ 3, 0, 0, 0, 0, 0, 0, 0], [0, 2], 600⟩

/-! ## List utilities -/

theorem mapWithIdx_length (f : Nat → Nat → Nat) :
    ∀ (l : List Nat) (s : Nat), (mapWithIdx f s l).length = l.length
  | [], _ => rfl
  | w :: ws, s => by rw [mapWithIdx, List.length_cons, List.length_cons,
      mapWithIdx_length f ws (s + 1)]

theorem mapWithIdx_getD (f : Nat → Nat → Nat) :
    ∀ (l : List Nat) (s j : Nat), j < l.length →
      (mapWithIdx f s l).getD j 0 = f (s + j) (l.getD j 0)
  | [], _, _, h => by simp at h
  | w :: ws, s, 0, _ => by simp [mapWithIdx]
  | w :: ws, s, j + 1, h => by
    rw [mapWithIdx]
    simp only [List.getD_cons_succ]
    rw [mapWithIdx_getD f ws (s + 1) j (by simpa using Nat.lt_of_succ_lt_succ h)]
    congr 1
    omega

theorem getD_map_zero (g : Nat → Nat) :
    ∀ (l : List Nat) (j : Nat), j < l.length → (l.map g).getD j 0 = g (l.getD j 0)
  | [], _, h => by simp at h
  | w :: ws, 0, _ => by simp
  | w :: ws, j + 1, h => by
    simp only [List.map_cons, List.getD_cons_succ]
    exact getD_map_zero g ws j (by simpa using Nat.lt_of_succ_lt_succ h)

theorem getD_mem : ∀ (l : List Nat) (j : Nat), j < l.length → l.getD j 0 ∈ l
  | w :: ws, 0, _ => by simp
  | w :: ws, j + 1, h => by
    simp only [List.getD_cons_succ]
    exact List.mem_cons_of_mem _ (getD_mem ws j (by simpa using Nat.lt_of_succ_lt_succ h))

theorem list_eq_of_getD : ∀ {l1 l2 : List Nat}, l1.length = l2.length →
    (∀ j < l1.length, l1.getD j 0 = l2.getD j 0) → l1 = l2
  | [], [], _, _ => rfl
  | [], w :: ws, hl, _ => by simp at hl
  | w :: ws, [], hl, _ => by simp at hl
  | w :: ws, v :: vs, hl, h => by
    have h0 := h 0 (by simp)
    simp only [List.getD_cons_zero] at h0
    rw [h0]
    exact congrArg (List.cons v) (list_eq_of_getD (by simpa using hl)
      (fun j hj => by simpa using h (j + 1) (by simpa using Nat.succ_lt_succ hj)))

/-! ## C5 — serialization round-trip -/

/-- Helper: decoding the concatenated 4-byte images of `uint32` values
restores them exactly. -/
theorem bytesToU32s_flatMap : ∀ cs : List Nat, (∀ c ∈ cs, c < 2 ^ 32) →
    bytesToU32s (cs.flatMap natToBytes4) = cs
  | [], _ => rfl
  | c :: cs, h => by
    have hrec := bytesToU32s_flatMap cs (fun x hx => h x (List.mem_cons_of_mem c hx))
    have hc := h c (List.mem_cons_self c cs)
    simp only [List.flatMap_cons, natToBytes4, List.cons_append, List.nil_append]
    rw [bytesToU32s, hrec]
    congr 1
    omega

/-- Helper: decoding the concatenated 8-byte images of `uint64` values
restores them exactly. -/
theorem bytesToU64s_flatMap : ∀ ws : List Nat, (∀ w ∈ ws, w < 2 ^ 64) →
    bytesToU64s (ws.flatMap natToBytes8) = ws
  | [], _ => rfl
  | w :: ws, h => by
    have hrec := bytesToU64s_flatMap ws (fun x hx => h x (List.mem_cons_of_mem w hx))
    have hw := h w (List.mem_cons_self w ws)
    simp only [List.flatMap_cons, natToBytes8, List.cons_append, List.nil_append]
    rw [bytesToU64s, hrec]
    congr 1
    omega

/-- C5: `Deserialize(Serialize(v)) == v` for every well-formed `v` — size,
counts and words are restored exactly regardless of the pre-existing state of
the destination; serializing the empty vector yields `size = 0` with both
arrays absent, and deserializing that yields the empty vector (stale fields
are reset, not kept). -/
theorem C5_serialize_roundtrip (bv prior prior2 : BitVector) (h : WF bv) :
    deserializeInto prior bv.serialize = bv ∧
    BitVector.empty.serialize = ⟨0, none, none⟩ ∧
    deserializeInto prior2 ⟨0, none, none⟩ = BitVector.empty := by
  obtain ⟨ws, cs, sz⟩ := bv
  obtain ⟨hcl, hwl, hsz, hwb, hcb, hc0, hchain, hpad⟩ := h
  simp only at hwl hwb hcb
  refine ⟨?_, rfl, rfl⟩
  unfold BitVector.serialize deserializeInto
  by_cases hc : cs.isEmpty
  · have hce : cs = [] := List.isEmpty_iff.mp hc
    have hwe : ws = [] := by
      rw [← List.length_eq_zero]
      rw [hce] at hwl
      simpa using hwl
    subst hce hwe
    rfl
  · have hwne : ¬ws.isEmpty := by
      intro hwe
      have h9 := List.isEmpty_iff.mp hwe
      rw [h9] at hwl
      simp at hwl
      exact hc (List.isEmpty_iff.mpr hwl)
    simp only [hc, hwne, if_neg, Bool.false_eq_true, not_false_iff, ite_false]
    rw [BitVector.mk.injEq]
    exact ⟨bytesToU64s_flatMap ws hwb, bytesToU32s_flatMap cs hcb, rfl⟩

/-- Witness for C5 at the two-block vector `exTwoBlocks` (and arbitrary prior
destination states `exV`, `exA`). -/
theorem C5_witness :
    WF exTwoBlocks ∧
    (deserializeInto exV exTwoBlocks.serialize = exTwoBlocks ∧
     BitVector.empty.serialize = ⟨0, none, none⟩ ∧
     deserializeInto exA ⟨0, none, none⟩ = BitVector.empty) :=
  ⟨by decide, C5_serialize_roundtrip exTwoBlocks exV exA (by decide)⟩

/-! ## C8 — Not is an involution -/

theorem testBit_ge_64 (w : Nat) (hw : w < 2 ^ 64) (i : Nat) (hi : 64 ≤ i) :
    w.testBit i = false :=
  Nat.testBit_lt_two_pow
    (lt_of_lt_of_le hw (Nat.pow_le_pow_right (by norm_num) hi))

/-- Complement, clear-after, complement, clear-after restores a word whose
bits after position `b` were already clear. -/
theorem clearAfter_not_not (w b : Nat) (hw : w < 2 ^ 64) (hb : b < 64)
    (htrail : ∀ i, b < i → i < 64 → w.testBit i = false) :
    clearAfterWord (clearAfterWord (w ^^^ (2 ^ 64 - 1)) b ^^^ (2 ^ 64 - 1)) b = w := by
  apply Nat.eq_of_testBit_eq
  intro i
  simp only [clearAfterWord, Nat.testBit_and, Nat.testBit_xor,
    Nat.testBit_two_pow_sub_one]
  by_cases hib : i ≤ b
  · have h1 : i < b + 1 := by omega
    have h2 : i < 64 := by omega
    cases hwi : w.testBit i <;> simp [h1, h2, hwi]
  · have h1 : ¬ i < b + 1 := by omega
    simp only [h1, decide_False, Bool.and_false, Bool.false_eq]
    by_cases h2 : i < 64
    · exact htrail i (by omega) h2
    · exact testBit_ge_64 w hw i (by omega)

/-- A word all of whose positions lie at or past `size` is zero. -/
theorem word_zero_of_trailing (w : Nat) (hw : w < 2 ^ 64)
    (htrail : ∀ i, i < 64 → w.testBit i = false) : w = 0 := by
  apply Nat.eq_of_testBit_eq
  intro i
  rw [Nat.zero_testBit]
  by_cases h2 : i < 64
  · exact htrail i h2
  · exact testBit_ge_64 w hw i (by omega)

/-- C8: applying `Not()` twice restores the vector exactly: the whole
structure, hence the size, every bit, the total `CountSetBits()` and every
prefix count. -/
theorem C8_not_involution (bv : BitVector) (h : WF bv) :
    bv.not.not = bv ∧
    bv.not.not.size = bv.size ∧
    (∀ i, bv.not.not.isSet i = bv.isSet i) ∧
    bv.not.not.countSetBits = bv.countSetBits ∧
    (∀ e, bv.not.not.countSetBitsUpTo e = bv.countSetBitsUpTo e) := by
  suffices heq : bv.not.not = bv by
    rw [heq]
    exact ⟨rfl, rfl, fun i => rfl, rfl, fun e => rfl⟩
  have hprefix := counts_prefix_eq bv h
  obtain ⟨hcl, hwl, hsz, hwb, hcb, hc0, hchain, hpad⟩ := h
  by_cases hs : bv.size = 0
  · have h1 : bv.not = bv := by
      unfold BitVector.not
      rw [if_pos hs]
    rw [h1, h1]
  · have h1 : bv.not = ⟨clearAfterInBlock (bv.words.map (fun w => w ^^^ (2 ^ 64 - 1)))
        ((bv.size - 1) / 512) ((bv.size - 1) % 512),
        mapWithIdx (fun i c => if i = 0 then c else 512 * i - c) 0 bv.counts, bv.size⟩ := by
      unfold BitVector.not
      rw [if_neg hs]
    have heta : bv = ⟨bv.words, bv.counts, bv.size⟩ := rfl
    rw [h1]
    unfold BitVector.not
    dsimp only
    rw [if_neg hs]
    conv_rhs => rw [heta]
    simp only [BitVector.mk.injEq]
    refine ⟨?_, ?_, trivial⟩
    · -- words: double complement + double ClearAfter restores the word list
      have hlen1 : ∀ (l : List Nat) (blk off : Nat),
          (clearAfterInBlock l blk off).length = l.length := by
        intro l blk off
        unfold clearAfterInBlock
        rw [mapWithIdx_length]
      apply list_eq_of_getD
      · rw [hlen1, List.length_map, hlen1, List.length_map]
      · intro j hj
        have hjlen : j < bv.words.length := by
          rw [hlen1, List.length_map, hlen1, List.length_map] at hj
          exact hj
        have hjblk : j < 8 * (((bv.size - 1) / 512) + 1) := by
          rw [hwl, hcl] at hjlen
          unfold blockCount at hjlen
          omega
        -- getD through the outer clearAfterInBlock
        have houter : ∀ (l : List Nat), j < l.length →
            (clearAfterInBlock l ((bv.size - 1) / 512) ((bv.size - 1) % 512)).getD j 0 =
            (if j < 8 * ((bv.size - 1) / 512) + (bv.size - 1) % 512 / 64 then l.getD j 0
             else if j = 8 * ((bv.size - 1) / 512) + (bv.size - 1) % 512 / 64 then
               clearAfterWord (l.getD j 0) ((bv.size - 1) % 512 % 64)
             else if j < 8 * (((bv.size - 1) / 512) + 1) then 0
             else l.getD j 0) := by
          intro l hl
          unfold clearAfterInBlock
          rw [mapWithIdx_getD _ l 0 j hl]
          simp only [Nat.zero_add]
        have hmapget : ∀ (l : List Nat), j < l.length →
            (l.map (fun w => w ^^^ (2 ^ 64 - 1))).getD j 0 = l.getD j 0 ^^^ (2 ^ 64 - 1) := by
          intro l hl
          exact getD_map_zero _ l j hl
        rw [houter _ (by rw [List.length_map, hlen1, List.length_map]; exact hjlen),
            hmapget _ (by rw [hlen1, List.length_map]; exact hjlen),
            houter _ (by rw [List.length_map]; exact hjlen),
            hmapget _ hjlen]
        by_cases hcase1 : j < 8 * ((bv.size - 1) / 512) + (bv.size - 1) % 512 / 64
        · rw [if_pos hcase1, if_pos hcase1]
          exact Nat.xor_cancel_right _ _
        · by_cases hcase2 : j = 8 * ((bv.size - 1) / 512) + (bv.size - 1) % 512 / 64
          · rw [if_neg hcase1, if_pos hcase2, if_neg hcase1, if_pos hcase2]
            apply clearAfter_not_not
            · exact hwb _ (getD_mem _ _ hjlen)
            · omega
            · intro i hbi hi64
              have hp := hpad (64 * j + i) (by omega) (by omega)
              unfold wordsBit at hp
              have q1 : (64 * j + i) / 64 = j := by omega
              have q2 : (64 * j + i) % 64 = i := by omega
              rw [q1, q2] at hp
              exact hp
          · rw [if_neg hcase1, if_neg hcase2, if_pos (by omega)]
            symm
            apply word_zero_of_trailing
            · exact hwb _ (getD_mem _ _ hjlen)
            · intro i hi64
              have hp := hpad (64 * j + i) (by omega) (by omega)
              unfold wordsBit at hp
              have q1 : (64 * j + i) / 64 = j := by omega
              have q2 : (64 * j + i) % 64 = i := by omega
              rw [q1, q2] at hp
              exact hp
    · -- counts: i = 0 kept, otherwise 512*i - (512*i - c) = c
      apply list_eq_of_getD
      · rw [mapWithIdx_length, mapWithIdx_length]
      · intro i hi
        have hilen : i < bv.counts.length := by
          rw [mapWithIdx_length, mapWithIdx_length] at hi
          exact hi
        rw [mapWithIdx_getD _ _ 0 i (by rw [mapWithIdx_length]; exact hilen),
            mapWithIdx_getD _ _ 0 i hilen]
        by_cases hi0 : 0 + i = 0
        · rw [if_pos hi0, if_pos hi0]
        · rw [if_neg hi0, if_neg hi0]
          have hc := hprefix i hilen
          have hcle : bv.counts.getD i 0 ≤ 512 * i := by
            rw [hc]
            calc (List.range (512 * i)).countP (wordsBit bv.words)
                ≤ (List.range (512 * i)).length := List.countP_le_length _
              _ = 512 * i := List.length_range _
          omega

/-- Witness for C8 at the concrete vector `exA`. -/
theorem C8_witness :
    WF exA ∧ exA.not.not = exA ∧ exA.not.not.countSetBits = exA.countSetBits :=
  ⟨by decide, (C8_not_involution exA (by decide)).1,
    (C8_not_involution exA (by decide)).2.2.2.1⟩

/-! ## C9 — iterator infrastructure -/

/-- Specification-side list of the set-bit positions at or past `i`. -/
def setBitsFrom (bv : BitVector) (i : Nat) : List Nat :=
  (List.range' i (bv.size - i)).filter bv.isSet

theorem setBitsFrom_past (bv : BitVector) (i : Nat) (h : bv.size ≤ i) :
    setBitsFrom bv i = [] := by
  unfold setBitsFrom
  rw [Nat.sub_eq_zero_of_le h]
  rfl

theorem setBitsFrom_step (bv : BitVector) (i : Nat) (h : i < bv.size) :
    setBitsFrom bv i = (if bv.isSet i then [i] else []) ++ setBitsFrom bv (i + 1) := by
  unfold setBitsFrom
  have h1 : bv.size - i = (bv.size - (i + 1)) + 1 := by omega
  rw [h1, List.range'_succ, List.filter_cons]
  by_cases hf : bv.isSet i
  · rw [if_pos hf, if_pos hf]
    rfl
  · simp only [Bool.not_eq_true] at hf
    rw [hf]
    simp

/-- The suffix list of set positions is the `rank`-th drop of the full
ascending list of set positions. -/
theorem setBitsFrom_eq_drop (bv : BitVector) :
    ∀ start, setBitsFrom bv start =
      ((List.range bv.size).filter bv.isSet).drop ((List.range start).countP bv.isSet) := by
  intro start
  induction start with
  | zero =>
    simp only [List.range_zero, List.countP_nil, List.drop_zero]
    unfold setBitsFrom
    rw [Nat.sub_zero, List.range_eq_range']
  | succ start ih =>
    by_cases h : start < bv.size
    · rw [List.range_succ, List.countP_append]
      have hstep := setBitsFrom_step bv start h
      by_cases hf : bv.isSet start
      · have h1 : List.countP bv.isSet [start] = 1 := by simp [List.countP_cons, hf]
        rw [h1]
        rw [hstep, if_pos hf] at ih
        have h2 : ((List.range bv.size).filter bv.isSet).drop
            ((List.range start).countP bv.isSet + 1) =
            (((List.range bv.size).filter bv.isSet).drop
              ((List.range start).countP bv.isSet)).drop 1 := by
          rw [List.drop_drop]
        rw [h2, ← ih]
        simp
      · simp only [Bool.not_eq_true] at hf
        simpa [hstep, hf, List.countP_cons] using ih
    · have h1 : bv.size ≤ start := by omega
      rw [setBitsFrom_past bv _ (by omega)]
      symm
      rw [List.drop_eq_nil_iff, ← List.countP_eq_length_filter]
      calc (List.range bv.size).countP bv.isSet
          ≤ (List.range (start + 1)).countP bv.isSet := by
            rw [show start + 1 = bv.size + (start + 1 - bv.size) by omega, countP_range_add]
            omega
        _ = _ := rfl

/-- Counting stops growing exactly on the stretches with no set positions. -/
theorem no_bits_between (f : Nat → Bool) (a b : Nat) (hab : a ≤ b)
    (heq : (List.range a).countP f = (List.range b).countP f) :
    ∀ p, a ≤ p → p < b → f p = false := by
  intro p hpa hpb
  rw [show b = a + (b - a) by omega, countP_range_add] at heq
  have h0 : (List.range (b - a)).countP (fun i => f (a + i)) = 0 := by omega
  rw [List.countP_eq_zero] at h0
  have h1 := h0 (p - a) (List.mem_range.mpr (by omega))
  simp only [Bool.not_eq_true] at h1
  rw [show a + (p - a) = p by omega] at h1
  exact h1

theorem setBitsFrom_skip (bv : BitVector) (i j : Nat) (hij : i ≤ j)
    (hno : ∀ p, i ≤ p → p < j → bv.isSet p = false) :
    setBitsFrom bv i = setBitsFrom bv j := by
  obtain ⟨d, rfl⟩ : ∃ d, j = i + d := ⟨j - i, by omega⟩
  clear hij
  induction d generalizing i with
  | zero => rfl
  | succ d ih =>
    by_cases h : i < bv.size
    · rw [setBitsFrom_step bv i h, hno i (by omega) (by omega)]
      simp only [List.nil_append, if_false, Bool.false_eq_true]
      rw [show i + (d + 1) = (i + 1) + d by omega]
      exact ih (i + 1) (fun p hp1 hp2 => hno p (by omega) (by omega))
    · rw [setBitsFrom_past bv i (by omega), setBitsFrom_past bv _ (by omega)]

theorem getD_default_irrel : ∀ (l : List Nat) (j d1 d2 : Nat), j < l.length →
    l.getD j d1 = l.getD j d2
  | a :: l, 0, _, _, _ => rfl
  | a :: l, j + 1, d1, d2, h => by
    simp only [List.getD_cons_succ]
    exact getD_default_irrel l j d1 d2 (by simpa using Nat.lt_of_succ_lt_succ h)
  | [], _, _, _, h => by simp at h

theorem getLastD_eq_getD : ∀ (l : List Nat) (d : Nat), l ≠ [] →
    l.getLastD d = l.getD (l.length - 1) d
  | [], _, h => by simp at h
  | [a], _, _ => by simp
  | a :: b :: l, d, _ => by
    rw [List.getLastD_cons, getLastD_eq_getD (b :: l) a (by simp)]
    have hlen : (a :: b :: l).length - 1 = ((b :: l).length - 1) + 1 := by
      simp
    rw [hlen, List.getD_cons_succ]
    exact getD_default_irrel (b :: l) _ a d (by simp [Nat.sub_lt_succ])

theorem getD_take : ∀ (l : List Nat) (m j d : Nat), j < m →
    (l.take m).getD j d = l.getD j d
  | [], _, _, _, _ => by simp
  | a :: l, m + 1, 0, d, _ => by simp
  | a :: l, m + 1, j + 1, d, h => by
    simp only [List.take_succ_cons, List.getD_cons_succ]
    exact getD_take l m j d (by omega)

theorem getD_drop : ∀ (l : List Nat) (a j d : Nat), (l.drop a).getD j d = l.getD (a + j) d
  | [], a, j, d => by simp
  | x :: l, 0, j, d => by simp
  | x :: l, a + 1, j, d => by
    simp only [List.drop_succ_cons]
    rw [getD_drop l a j d]
    have h1 : a + 1 + j = (a + j) + 1 := by omega
    rw [h1, List.getD_cons_succ]

/-- The batch scan collects, in order, the next `kBatchSize - rank %
kBatchSize` set positions at or past `i` (all of them if fewer remain): the
block-skip never skips a set bit and only set positions are collected. -/
theorem readBatchGo_spec (bv : BitVector) (h : WF bv) :
    ∀ (fuel i rank : Nat) (acc : List Nat),
      bv.size ≤ fuel + i →
      rank = (List.range i).countP bv.isSet →
      readBatchGo bv bv.countSetBits fuel i rank acc =
        acc ++ (setBitsFrom bv i).take (kBatchSize - rank % kBatchSize) := by
  intro fuel
  induction fuel with
  | zero =>
    intro i rank acc hfuel hrank
    rw [readBatchGo, setBitsFrom_past bv i (by omega)]
    simp
  | succ fuel ih =>
    intro i rank acc hfuel hrank
    rw [readBatchGo]
    by_cases hi : i < bv.size
    · rw [if_pos hi]
      have hblk : i / 512 < bv.counts.length := by
        rw [h.1]
        unfold blockCount
        omega
      by_cases hskip :
          (if i / 512 = bv.counts.length - 1 then bv.countSetBits
           else bv.counts.getD (i / 512 + 1) 0) = rank
      · rw [if_pos hskip]
        have hnb : ∀ p, i ≤ p → p < 512 * (i / 512 + 1) → bv.isSet p = false := by
          by_cases hlast : i / 512 = bv.counts.length - 1
          · rw [if_pos hlast] at hskip
            rw [countSetBits_eq_isSet bv h] at hskip
            intro p hp1 hp2
            by_cases hps : p < bv.size
            · exact no_bits_between bv.isSet i bv.size (by omega)
                (by rw [← hrank, hskip]) p hp1 hps
            · exact isSet_ge_size bv h p (by omega)
          · rw [if_neg hlast] at hskip
            have hblk2 : i / 512 + 1 < bv.counts.length := by omega
            rw [counts_prefix_eq_isSet bv h (i / 512 + 1) hblk2] at hskip
            intro p hp1 hp2
            exact no_bits_between bv.isSet i (512 * (i / 512 + 1)) (by omega)
              (by rw [← hrank, hskip]) p hp1 hp2
        have hrank2 : rank = (List.range (512 * (i / 512 + 1))).countP bv.isSet := by
          rw [show 512 * (i / 512 + 1) = i + (512 * (i / 512 + 1) - i) by omega,
            countP_range_add, ← hrank]
          have hz : (List.range (512 * (i / 512 + 1) - i)).countP
              (fun j => bv.isSet (i + j)) = 0 := by
            rw [List.countP_eq_zero]
            intro j hj
            simp only [Bool.not_eq_true]
            exact hnb (i + j) (by omega) (by rw [List.mem_range] at hj; omega)
          omega
        rw [ih (512 * (i / 512 + 1)) rank acc (by omega) hrank2,
          setBitsFrom_skip bv i (512 * (i / 512 + 1)) (by omega) hnb]
      · rw [if_neg hskip]
        by_cases hbit : bv.isSet i
        · rw [if_pos hbit]
          have hmlb : 1 ≤ kBatchSize - rank % kBatchSize := by
            simp only [kBatchSize]
            omega
          by_cases hret : rank % kBatchSize = kBatchSize - 1
          · rw [if_pos hret]
            rw [setBitsFrom_step bv i hi, if_pos hbit]
            have hone : kBatchSize - rank % kBatchSize = 1 := by
              simp only [kBatchSize] at hret ⊢
              omega
            rw [hone]
            simp
          · rw [if_neg hret]
            have hrank3 : rank + 1 = (List.range (i + 1)).countP bv.isSet := by
              rw [List.range_succ, List.countP_append, ← hrank]
              simp [List.countP_cons, hbit]
            rw [ih (i + 1) (rank + 1) (acc ++ [i]) (by omega) hrank3,
              setBitsFrom_step bv i hi, if_pos hbit]
            have htake : kBatchSize - rank % kBatchSize =
                (kBatchSize - (rank + 1) % kBatchSize) + 1 := by
              simp only [kBatchSize] at hret ⊢
              omega
            rw [htake]
            simp only [List.singleton_append, List.take_succ_cons, List.append_assoc,
              List.singleton_append]
        · simp only [Bool.not_eq_true] at hbit
          rw [if_neg (by simp [hbit])]
          have hrank4 : rank = (List.range (i + 1)).countP bv.isSet := by
            rw [List.range_succ, List.countP_append, ← hrank]
            simp [List.countP_cons, hbit]
          rw [ih (i + 1) rank acc (by omega) hrank4,
            setBitsFrom_step bv i hi, hbit]
          simp
    · rw [if_neg hi, setBitsFrom_past bv i (by omega)]
      simp

/-- Draining batch after batch yields exactly the suffix of the ascending
set-position list starting at the current rank. -/
theorem drainGo_spec (bv : BitVector) (h : WF bv) :
    ∀ (fuel rank start : Nat),
      rank % kBatchSize = 0 →
      rank = (List.range start).countP bv.isSet →
      bv.countSetBits ≤ fuel * kBatchSize + rank →
      drainGo bv bv.countSetBits fuel rank start =
        ((List.range bv.size).filter bv.isSet).drop rank := by
  intro fuel
  induction fuel with
  | zero =>
    intro rank start hmod hrank hfuel
    rw [drainGo]
    symm
    rw [List.drop_eq_nil_iff, ← List.countP_eq_length_filter, ← countSetBits_eq_isSet bv h]
    simp only [kBatchSize] at hfuel
    omega
  | succ fuel ih =>
    intro rank start hmod hrank hfuel
    rw [drainGo]
    have hb : readBatch bv bv.countSetBits rank start =
        (((List.range bv.size).filter bv.isSet).drop rank).take kBatchSize := by
      unfold readBatch
      rw [readBatchGo_spec bv h bv.size start rank [] (by omega) hrank, hmod,
        Nat.sub_zero, List.nil_append, setBitsFrom_eq_drop bv start, ← hrank]
    rw [hb]
    have hlenAll : ((List.range bv.size).filter bv.isSet).length = bv.countSetBits := by
      rw [← List.countP_eq_length_filter, ← countSetBits_eq_isSet bv h]
    by_cases hcont : rank + kBatchSize < bv.countSetBits
    · rw [if_pos hcont]
      have hlenb : ((((List.range bv.size).filter bv.isSet).drop rank).take
          kBatchSize).length = kBatchSize := by
        rw [List.length_take, List.length_drop, hlenAll]
        omega
      have hgetlast : ((((List.range bv.size).filter bv.isSet).drop rank).take
          kBatchSize).getLastD 0 =
          ((List.range bv.size).filter bv.isSet).getD (rank + (kBatchSize - 1)) 0 := by
        rw [getLastD_eq_getD _ 0 ?hne, hlenb, getD_take _ _ _ _ (by simp [kBatchSize]),
          getD_drop]
        case hne =>
          intro hnil
          rw [hnil] at hlenb
          simp [kBatchSize] at hlenb
      rw [hgetlast]
      have hsel := select_spec bv.isSet bv.size (rank + (kBatchSize - 1))
        (by rw [hlenAll]; simp only [kBatchSize] at hcont ⊢; omega)
      obtain ⟨hsel1, hsel2, hsel3⟩ := hsel
      have hrank2 : rank + kBatchSize =
          (List.range (((List.range bv.size).filter bv.isSet).getD
            (rank + (kBatchSize - 1)) 0 + 1)).countP bv.isSet := by
        have hone : List.countP bv.isSet
            [((List.range bv.size).filter bv.isSet).getD (rank + (kBatchSize - 1)) 0] = 1 := by
          rw [List.countP_cons, List.countP_nil, hsel2]
          rfl
        rw [List.range_succ, List.countP_append, hsel1, hone]
        simp only [kBatchSize]
        try omega
      rw [ih (rank + kBatchSize) _ (by simp only [kBatchSize] at hmod ⊢; omega) hrank2
        (by simp only [kBatchSize] at hfuel ⊢; omega)]
      have hdd : ((List.range bv.size).filter bv.isSet).drop (rank + kBatchSize) =
          (((List.range bv.size).filter bv.isSet).drop rank).drop kBatchSize := by
        rw [List.drop_drop]
        try congr 1
        try omega
      rw [hdd, List.take_append_drop]
    · rw [if_neg hcont]
      rw [List.take_of_length_le]
      rw [List.length_drop, hlenAll]
      omega

/-- C9: `GetSetBitIndices()` (a full drain of a `SetBitsIterator`) yields the
strictly ascending list of exactly those indices `< size` whose bit is set,
and its length is `CountSetBits()`: the block-skip optimization never skips a
set bit and never yields an unset position. -/
theorem C9_getSetBitIndices (bv : BitVector) (h : WF bv) :
    bv.getSetBitIndices = (List.range bv.size).filter bv.isSet ∧
    List.Pairwise (· < ·) bv.getSetBitIndices ∧
    bv.getSetBitIndices.length = bv.countSetBits := by
  have hmain : bv.getSetBitIndices = (List.range bv.size).filter bv.isSet := by
    unfold BitVector.getSetBitIndices
    by_cases hz : bv.countSetBits = 0
    · rw [if_pos hz]
      symm
      rw [← List.length_eq_zero, ← List.countP_eq_length_filter,
        ← countSetBits_eq_isSet bv h, hz]
    · rw [if_neg hz]
      rw [drainGo_spec bv h (bv.countSetBits + 1) 0 0 (by simp) (by simp)
        (by simp only [kBatchSize]; omega)]
      rw [List.drop_zero]
  refine ⟨hmain, ?_, ?_⟩
  · rw [hmain]
    exact (List.pairwise_lt_range bv.size).filter _
  · rw [hmain, ← List.countP_eq_length_filter, ← countSetBits_eq_isSet bv h]

/-- Witness for C9 at the concrete two-block vector `exTwoBlocks`
(set bits at 5, 100 and 515). -/
theorem C9_witness :
    WF exTwoBlocks ∧
    (exTwoBlocks.getSetBitIndices =
        (List.range exTwoBlocks.size).filter exTwoBlocks.isSet ∧
      List.Pairwise (· < ·) exTwoBlocks.getSetBitIndices ∧
      exTwoBlocks.getSetBitIndices.length = exTwoBlocks.countSetBits) ∧
    exTwoBlocks.getSetBitIndices = [5, 100, 515] :=
  ⟨by decide, C9_getSetBitIndices exTwoBlocks (by decide), by decide⟩

/-! ## C2 — Builder lemmas -/

theorem getD_set : ∀ (l : List Nat) (i j v : Nat),
    (l.set i v).getD j 0 = if i = j ∧ i < l.length then v else l.getD j 0
  | [], i, j, v => by simp
  | a :: l, 0, 0, v => by simp
  | a :: l, 0, j + 1, v => by simp
  | a :: l, i + 1, 0, v => by simp
  | a :: l, i + 1, j + 1, v => by
    simp only [List.set_cons_succ, List.getD_cons_succ, List.length_cons]
    rw [getD_set l i j v]
    by_cases hc : i = j ∧ i < l.length
    · rw [if_pos hc, if_pos (by omega)]
    · rw [if_neg hc, if_neg (by omega)]

theorem getD_replicate_zero : ∀ (n j : Nat), (List.replicate n (0 : Nat)).getD j 0 = 0
  | 0, _ => by simp
  | n + 1, 0 => by simp
  | n + 1, j + 1 => by
    simp only [List.replicate_succ, List.getD_cons_succ]
    exact getD_replicate_zero n j

theorem wordsBit_replicate (n p : Nat) : wordsBit (List.replicate n 0) p = false := by
  unfold wordsBit
  rw [getD_replicate_zero]
  exact Nat.zero_testBit _

theorem wordsBit_setBitAt (ws : List Nat) (p q : Nat) (hlen : p / 64 < ws.length) :
    wordsBit (setBitAt ws p) q = (decide (q = p) || wordsBit ws q) := by
  unfold setBitAt wordsBit
  rw [getD_set]
  by_cases hq : p / 64 = q / 64 ∧ p / 64 < ws.length
  · rw [if_pos hq]
    rw [Nat.testBit_or, Nat.testBit_two_pow, hq.1, Bool.or_comm]
    congr 1
    rw [decide_eq_decide]
    omega
  · rw [if_neg hq]
    have hne : q ≠ p := by
      intro hqp
      subst hqp
      exact hq ⟨rfl, hlen⟩
    simp [hne]

theorem size_le_64_blockWords (size : Nat) : size ≤ 64 * (8 * blockCount size) := by
  unfold blockCount
  omega

/-- The bit-by-bit fill loop: sizes, length, cursor and the bits written. -/
theorem appendBits_spec (bv : BitVector) : ∀ (n : Nat) (b : Builder) (start : Nat),
    b.cur = start → b.words.length = 8 * blockCount b.size → start + n ≤ b.size →
    (appendBits b bv start n).size = b.size ∧
    (appendBits b bv start n).words.length = b.words.length ∧
    (appendBits b bv start n).cur = start + n ∧
    ∀ p, wordsBit (appendBits b bv start n).words p =
      (if start ≤ p ∧ p < start + n then bv.isSet p || wordsBit b.words p
       else wordsBit b.words p) := by
  intro n
  induction n with
  | zero =>
    intro b start hcur hlen hle
    rw [appendBits]
    refine ⟨rfl, rfl, by omega, ?_⟩
    intro p
    rw [if_neg (by omega)]
  | succ n ih =>
    intro b start hcur hlen hle
    rw [appendBits]
    have hlt : b.cur < b.size := by omega
    have hword : start / 64 < b.words.length := by
      have h1 := size_le_64_blockWords b.size
      rw [hlen]
      omega
    have hb2 : b.append (bv.isSet start) =
        ⟨b.size, if bv.isSet start then setBitAt b.words b.cur else b.words, b.cur + 1⟩ := by
      unfold Builder.append
      rw [if_pos hlt]
    have hlen2 : (b.append (bv.isSet start)).words.length =
        8 * blockCount (b.append (bv.isSet start)).size := by
      rw [hb2]
      by_cases hset : bv.isSet start
      · simp only [hset, if_true]
        unfold setBitAt
        rw [List.length_set, hlen]
      · simp only [hset]
        simpa using hlen
    have hle2 : start + 1 + n ≤ (b.append (bv.isSet start)).size := by
      rw [hb2]
      simpa using (by omega : start + 1 + n ≤ b.size)
    obtain ⟨ih1, ih2, ih3, ih4⟩ := ih (b.append (bv.isSet start)) (start + 1)
      (by rw [hb2]; simp [hcur]) hlen2 hle2
    refine ⟨by rw [ih1, hb2], ?_, by rw [ih3]; omega, ?_⟩
    · rw [ih2, hb2]
      by_cases hset : bv.isSet start
      · simp only [hset, if_true]
        unfold setBitAt
        simp [List.length_set]
      · simp [hset]
    · intro p
      rw [ih4 p]
      have hbit : wordsBit (b.append (bv.isSet start)).words p =
          (if p = start then bv.isSet start || wordsBit b.words p
           else wordsBit b.words p) := by
        rw [hb2]
        by_cases hset : bv.isSet start
        · simp only [hset, if_true]
          rw [hcur, wordsBit_setBitAt b.words start p hword]
          by_cases hp : p = start
          · rw [if_pos hp]
            simp [hp]
          · rw [if_neg hp]
            simp [hp]
        · simp only [Bool.not_eq_true] at hset
          rw [hset]
          simp only [Bool.false_eq_true, if_false, Bool.false_or]
          by_cases hp : p = start
          · rw [if_pos hp]
          · rw [if_neg hp]
      by_cases hin : start + 1 ≤ p ∧ p < start + 1 + n
      · rw [if_pos hin, if_pos (by omega), hbit, if_neg (by omega)]
      · rw [if_neg hin, hbit]
        by_cases hp : p = start
        · rw [if_pos hp, if_pos (by omega), hp]
        · rw [if_neg hp, if_neg (by omega)]

/-- The whole-word fill loop: sizes, length, cursor and the bits written. -/
theorem appendWords_spec (ws : List Nat) : ∀ (n : Nat) (b : Builder) (k : Nat),
    b.cur = 64 * k → b.words.length = 8 * blockCount b.size → 64 * (k + n) ≤ b.size →
    (appendWords b ws k n).size = b.size ∧
    (appendWords b ws k n).words.length = b.words.length ∧
    (appendWords b ws k n).cur = 64 * (k + n) ∧
    ∀ p, wordsBit (appendWords b ws k n).words p =
      (if 64 * k ≤ p ∧ p < 64 * (k + n) then wordsBit ws p
       else wordsBit b.words p) := by
  intro n
  induction n with
  | zero =>
    intro b k hcur hlen hle
    rw [appendWords]
    refine ⟨rfl, rfl, by omega, ?_⟩
    intro p
    rw [if_neg (by omega)]
  | succ n ih =>
    intro b k hcur hlen hle
    rw [appendWords]
    have hkword : k < b.words.length := by
      have h1 := size_le_64_blockWords b.size
      rw [hlen]
      omega
    have hb2 : b.appendWord (ws.getD k 0) =
        ⟨b.size, b.words.set (b.cur / 64) (ws.getD k 0), b.cur + 64⟩ := rfl
    have hdiv : b.cur / 64 = k := by omega
    have hlen2 : (b.appendWord (ws.getD k 0)).words.length =
        8 * blockCount (b.appendWord (ws.getD k 0)).size := by
      rw [hb2]
      simp only [List.length_set]
      simpa using hlen
    have hle2 : 64 * (k + 1 + n) ≤ (b.appendWord (ws.getD k 0)).size := by
      rw [hb2]
      simpa using (by omega : 64 * (k + 1 + n) ≤ b.size)
    obtain ⟨ih1, ih2, ih3, ih4⟩ := ih (b.appendWord (ws.getD k 0)) (k + 1)
      (by rw [hb2]; simp; omega) hlen2 hle2
    refine ⟨by rw [ih1, hb2], ?_, by rw [ih3]; omega, ?_⟩
    · rw [ih2, hb2]
      simp [List.length_set]
    · intro p
      rw [ih4 p]
      have hbit : wordsBit (b.appendWord (ws.getD k 0)).words p =
          (if 64 * k ≤ p ∧ p < 64 * (k + 1) then wordsBit ws p
           else wordsBit b.words p) := by
        rw [hb2, hdiv]
        unfold wordsBit
        rw [getD_set]
        by_cases hp : 64 * k ≤ p ∧ p < 64 * (k + 1)
        · rw [if_pos (by omega : k = p / 64 ∧ k < b.words.length), if_pos hp]
          have : p / 64 = k := by omega
          rw [this]
        · rw [if_neg (by omega : ¬(k = p / 64 ∧ k < b.words.length)), if_neg hp]
      by_cases hin : 64 * (k + 1) ≤ p ∧ p < 64 * (k + 1 + n)
      · rw [if_pos hin, if_pos (by omega)]
      · rw [if_neg hin, hbit]
        by_cases hp : 64 * k ≤ p ∧ p < 64 * (k + 1)
        · rw [if_pos hp, if_pos (by omega)]
        · rw [if_neg hp, if_neg (by omega)]

/-- C2 (amended): `IntersectRange(range_start, range_end)` keeps the original
global indexing.  When `range_start` is at or past the clamped end it returns
the empty vector; otherwise the result has size `min(range_end, size)`, every
bit below `range_start` clear, bit `p` equal to `this.bit(p)` on
`[range_start, min(range_end, size))`, and every bit at or past the clamped
end clear. -/
theorem build_size (b : Builder) : b.build.size = b.size := rfl

theorem build_isSet (b : Builder) (p : Nat) : b.build.isSet p = wordsBit b.words p := rfl

theorem C2_intersectRange_amended (bv : BitVector) (rs re : Nat) (h : WF bv) :
    (min re bv.size ≤ rs → bv.intersectRange rs re = BitVector.empty) ∧
    (rs < min re bv.size →
      (bv.intersectRange rs re).size = min re bv.size ∧
      (∀ p, p < rs → (bv.intersectRange rs re).isSet p = false) ∧
      (∀ p, rs ≤ p → p < min re bv.size →
        (bv.intersectRange rs re).isSet p = bv.isSet p) ∧
      (∀ p, min re bv.size ≤ p → (bv.intersectRange rs re).isSet p = false)) := by
  constructor
  · intro hge
    unfold BitVector.intersectRange
    rw [if_pos (by omega)]
  · intro hlt
    have key : (bv.intersectRange rs re).size = min re bv.size ∧
        ∀ p, (bv.intersectRange rs re).isSet p =
          (if rs ≤ p ∧ p < min re bv.size then bv.isSet p else false) := by
      unfold BitVector.intersectRange
      rw [if_neg (by omega)]
      simp only []
      set E := min re bv.size with hE
      set B0 := Builder.mk2 E rs with hB0
      have hB0size : B0.size = E := rfl
      have hB0cur : B0.cur = rs := rfl
      have hB0len : B0.words.length = 8 * blockCount B0.size := by
        rw [hB0]
        unfold Builder.mk2
        simp [List.length_replicate]
      have hB0bits : ∀ p, wordsBit B0.words p = false := by
        intro p
        rw [hB0]
        exact wordsBit_replicate _ p
      set F := B0.bitsUntilWordBoundaryOrFull with hF
      have hFval : F = min (E - rs) ((64 - rs % 64) % 64) := rfl
      have hFle : rs + F ≤ E := by
        rw [hFval]
        omega
      obtain ⟨hA1size, hA1len, hA1cur, hA1bits⟩ :=
        appendBits_spec bv F B0 rs hB0cur hB0len (by rw [hB0size]; omega)
      set B1 := appendBits B0 bv rs F with hB1
      have halign : rs + F = E ∨ (rs + F) % 64 = 0 := by
        rw [hFval]
        omega
      set CW := (rs + F) / 64 with hCW
      set FW := B1.bitsInCompleteWordsUntilFull / 64 with hFW
      have hFWval : FW = (E - (rs + F)) / 64 := by
        rw [hFW]
        unfold Builder.bitsInCompleteWordsUntilFull
        rw [hA1size, hA1cur, hB0size]
        omega
      have hB1len : B1.words.length = 8 * blockCount B1.size := by
        rw [hA1len, hA1size, hB0len, hB0size]
      by_cases hcase : rs + F = E
      · -- the head fill already reached the clamped end: no body, no tail
        have hFW0 : FW = 0 := by omega
        rw [hFW0, appendWords]
        have hT0 : B1.bitsUntilFull = 0 := by
          unfold Builder.bitsUntilFull
          omega
        rw [hT0, appendBits]
        refine ⟨?_, ?_⟩
        · rw [build_size]
          omega
        · intro p
          rw [build_isSet, hA1bits p]
          by_cases hp : rs ≤ p ∧ p < rs + F
          · rw [if_pos hp, if_pos (by omega), hB0bits p, Bool.or_false]
          · rw [if_neg hp, if_neg (by omega), hB0bits p]
      · have hmod : (rs + F) % 64 = 0 := by
          rcases halign with h1 | h1
          · exact absurd h1 hcase
          · exact h1
        obtain ⟨hA2size, hA2len, hA2cur, hA2bits⟩ :=
          appendWords_spec bv.words FW B1 CW (by omega) hB1len (by omega)
        set B2 := appendWords B1 bv.words CW FW with hB2
        have hB2len : B2.words.length = 8 * blockCount B2.size := by
          rw [hA2len, hA2size, hB1len]
        have hcur3 : B2.cur = rs + F + FW * 64 := by omega
        have hT3 : B2.bitsUntilFull = E - (rs + F + 64 * FW) := by
          unfold Builder.bitsUntilFull
          omega
        obtain ⟨hA3size, hA3len, hA3cur, hA3bits⟩ :=
          appendBits_spec bv B2.bitsUntilFull B2 (rs + F + FW * 64) hcur3 hB2len
            (by omega)
        refine ⟨?_, ?_⟩
        · rw [build_size]
          omega
        · intro p
          rw [build_isSet, hA3bits p]
          by_cases hp1 : p < rs
          · rw [if_neg (by omega), hA2bits p, if_neg (by omega),
              hA1bits p, if_neg (by omega), hB0bits p, if_neg (by omega)]
          · by_cases hp2 : p < rs + F
            · rw [if_neg (by omega), hA2bits p, if_neg (by omega),
                hA1bits p, if_pos (by omega), hB0bits p, Bool.or_false,
                if_pos (by omega)]
            · by_cases hp3 : p < rs + F + 64 * FW
              · rw [if_neg (by omega), hA2bits p, if_pos (by omega),
                  if_pos (by omega)]
                rfl
              · by_cases hp4 : p < E
                · rw [if_pos (by omega), hA2bits p,
                    if_neg (by omega), hA1bits p, if_neg (by omega),
                    hB0bits p, Bool.or_false, if_pos (by omega)]
                · rw [if_neg (by omega), hA2bits p,
                    if_neg (by omega), hA1bits p, if_neg (by omega),
                    hB0bits p, if_neg (by omega)]
    obtain ⟨ksize, kbits⟩ := key
    refine ⟨ksize, ?_, ?_, ?_⟩
    · intro p hp
      rw [kbits p, if_neg (by omega)]
    · intro p hp1 hp2
      rw [kbits p, if_pos ⟨hp1, hp2⟩]
    · intro p hp
      rw [kbits p, if_neg (by omega)]

/-- Witness for the amended C2 at the spec's example `v = [1,0,1,1,0]`,
`IntersectRange(1, 4)`. -/
theorem C2_witness :
    WF exV ∧ 1 < min 4 exV.size ∧
    ((exV.intersectRange 1 4).size = min 4 exV.size ∧
      (∀ p, p < 1 → (exV.intersectRange 1 4).isSet p = false) ∧
      (∀ p, 1 ≤ p → p < min 4 exV.size →
        (exV.intersectRange 1 4).isSet p = exV.isSet p) ∧
      (∀ p, min 4 exV.size ≤ p → (exV.intersectRange 1 4).isSet p = false)) :=
  ⟨by decide, by decide, (C2_intersectRange_amended exV 1 4 (by decide)).2 (by decide)⟩

/-! ## C1/C10 — PDEP bit identities -/

theorem lt_two_pow_of_high_bits (x n : Nat) (h : ∀ i, n ≤ i → x.testBit i = false) :
    x < 2 ^ n := by
  have hx : x = x % 2 ^ n := by
    apply Nat.eq_of_testBit_eq
    intro i
    rw [Nat.testBit_mod_two_pow]
    by_cases hi : i < n
    · simp [hi]
    · simp [hi, h i (by omega)]
  rw [hx]
  exact Nat.mod_lt _ (Nat.pos_pow_of_pos n (by norm_num))

theorem popcount64_le (w : Nat) : popcount64 w ≤ 64 := by
  unfold popcount64
  calc (List.range 64).countP (fun i => w.testBit i) ≤ (List.range 64).length :=
        List.countP_le_length _
    _ = 64 := List.length_range _

theorem popcount64_zero_iff (w : Nat) (hw : w < 2 ^ 64) : popcount64 w = 0 ↔ w = 0 := by
  constructor
  · intro h0
    unfold popcount64 at h0
    rw [List.countP_eq_zero] at h0
    apply Nat.eq_of_testBit_eq
    intro i
    rw [Nat.zero_testBit]
    by_cases hi : i < 64
    · have := h0 i (List.mem_range.mpr hi)
      simpa using this
    · exact Nat.testBit_lt_two_pow
        (lt_of_lt_of_le hw (Nat.pow_le_pow_right (by norm_num) (by omega)))
  · intro h0
    subst h0
    unfold popcount64
    rw [List.countP_eq_zero]
    intro i _
    simp [Nat.zero_testBit]

/-- Subtraction from an all-ones value is bitwise complement. -/
theorem allones_sub_eq_xor : ∀ (k : Nat), ∀ x, x < 2 ^ k → 2 ^ k - 1 - x = x ^^^ (2 ^ k - 1)
  | 0, x, h => by
    have hx : x = 0 := by omega
    subst hx
    rfl
  | k + 1, x, h => by
    have h2 : (2 : Nat) ^ (k + 1) = 2 * 2 ^ k := by ring
    have hx2 : x / 2 < 2 ^ k := by omega
    have ih := allones_sub_eq_xor k (x / 2) hx2
    have hxbit : x = Nat.bit (decide (x % 2 = 1)) (x / 2) := by
      by_cases hc : x % 2 = 1 <;> simp [Nat.bit, hc] <;> omega
    have hmbit : 2 ^ (k + 1) - 1 = Nat.bit true (2 ^ k - 1) := by
      simp [Nat.bit]
      omega
    conv_rhs => rw [hxbit, hmbit, Nat.xor_bit]
    rw [← ih]
    by_cases hc : x % 2 = 1 <;> simp [Nat.bit, hc] <;> omega

/-- An odd value and its complement-to-`2^k` share exactly the lowest bit. -/
theorem odd_and_two_pow_sub (k m : Nat) (hm : m % 2 = 1) (hk : m < 2 ^ k) :
    m &&& (2 ^ k - m) = 1 := by
  have h0 : 0 < m := by omega
  have hk1 : 1 ≤ k := by
    by_contra hlt
    have : k = 0 := by omega
    subst this
    simp at hk
    omega
  have hsub : 2 ^ k - m = (2 ^ k - 1) - (m - 1) := by omega
  have hxor : 2 ^ k - m = (m - 1) ^^^ (2 ^ k - 1) := by
    rw [hsub, allones_sub_eq_xor k (m - 1) (by omega)]
  rw [hxor]
  apply Nat.eq_of_testBit_eq
  intro i
  rw [Nat.testBit_and, Nat.testBit_xor, Nat.testBit_two_pow_sub_one]
  match i with
  | 0 =>
    rw [Nat.testBit_zero, Nat.testBit_zero, Nat.testBit_zero]
    have hm1 : (m - 1) % 2 = 0 := by omega
    simp [hm, hm1, hk1]
    omega
  | i + 1 =>
    have h1 : (1 : Nat).testBit (i + 1) = false := by
      rw [Nat.testBit_add_one]
      simp
    rw [h1]
    by_cases hik : i + 1 < k
    · have heq : m.testBit (i + 1) = (m - 1).testBit (i + 1) := by
        rw [Nat.testBit_add_one, Nat.testBit_add_one]
        have : m / 2 = (m - 1) / 2 := by omega
        rw [this]
      rw [← heq]
      simp [hik]
    · have hm2i : m < 2 ^ (i + 1) :=
        lt_of_lt_of_le hk (Nat.pow_le_pow_right (by norm_num) (by omega))
      rw [Nat.testBit_lt_two_pow hm2i]
      simp

/-- Bitwise AND distributes over a common power-of-two factor. -/
theorem two_pow_mul_and (t a b : Nat) :
    (2 ^ t * a) &&& (2 ^ t * b) = 2 ^ t * (a &&& b) := by
  apply Nat.eq_of_testBit_eq
  intro i
  have hsl : ∀ (c : Nat), 2 ^ t * c = c <<< t := by
    intro c
    rw [Nat.shiftLeft_eq]
    ring
  rw [Nat.testBit_and, hsl a, hsl b, hsl (a &&& b),
    Nat.testBit_shiftLeft, Nat.testBit_shiftLeft, Nat.testBit_shiftLeft,
    Nat.testBit_and]
  by_cases hit : i ≥ t
  · simp [hit]
  · simp [hit]

/-- An odd value ANDed with its predecessor drops exactly the lowest bit. -/
theorem odd_and_sub_one (m : Nat) (hm : m % 2 = 1) : m &&& (m - 1) = m - 1 := by
  apply Nat.eq_of_testBit_eq
  intro i
  rw [Nat.testBit_and]
  match i with
  | 0 =>
    rw [Nat.testBit_zero, Nat.testBit_zero]
    have hm1 : (m - 1) % 2 = 0 := by omega
    simp [hm, hm1]
  | i + 1 =>
    rw [Nat.testBit_add_one, Nat.testBit_add_one]
    have : m / 2 = (m - 1) / 2 := by omega
    rw [this]
    cases hb : ((m - 1) / 2).testBit i <;> simp

/-- Decomposition of a nonzero 64-bit mask by its lowest set bit: both
`mask & (0 - mask)` and `mask & (mask - 1)` of the source loop are
characterized by the trailing-zero count `t`, and clearing the lowest set bit
clears exactly bit `t`. -/
theorem lowbit_decomp (mask : Nat) (h0 : 0 < mask) (h64 : mask < 2 ^ 64) :
    ∃ t, t < 64 ∧ mask.testBit t = true ∧ (∀ j, j < t → mask.testBit j = false) ∧
      mask &&& (2 ^ 64 - mask) = 2 ^ t ∧ mask &&& (mask - 1) = mask - 2 ^ t ∧
      2 ^ t ≤ mask ∧
      (∀ x, (mask - 2 ^ t).testBit x = (mask.testBit x && !(decide (x = t)))) := by
  obtain ⟨t, m, hdvd, hmask⟩ := Nat.exists_eq_pow_mul_and_not_dvd (by omega : mask ≠ 0) 2
    (by norm_num)
  have hmodd : m % 2 = 1 := by omega
  have hmpos : 0 < m := by omega
  have hp : (0 : Nat) < 2 ^ t := Nat.pos_pow_of_pos t (by norm_num)
  have hshift : mask = m <<< t := by
    rw [Nat.shiftLeft_eq, hmask]
    ring
  have hptm : 2 ^ t ≤ 2 ^ t * m := by
    calc (2 : Nat) ^ t = 2 ^ t * 1 := by ring
      _ ≤ 2 ^ t * m := Nat.mul_le_mul_left _ hmpos
  have htp : 2 ^ t ≤ mask := by
    rw [hmask]
    exact hptm
  have ht64 : t < 64 := by
    by_contra hge
    have h1 : 2 ^ 64 ≤ 2 ^ t := Nat.pow_le_pow_right (by norm_num) (by omega)
    omega
  have hbit : ∀ j, mask.testBit j = (decide (j ≥ t) && m.testBit (j - t)) := by
    intro j
    rw [hshift, Nat.testBit_shiftLeft]
  have hmlt : m < 2 ^ (64 - t) := by
    by_contra hge
    have h1 : 2 ^ t * 2 ^ (64 - t) ≤ 2 ^ t * m := Nat.mul_le_mul_left _ (by omega)
    rw [← Nat.pow_add] at h1
    have h2 : t + (64 - t) = 64 := by omega
    rw [h2, ← hmask] at h1
    omega
  have hms : mask - 2 ^ t = 2 ^ t * (m - 1) := by
    rw [hmask, Nat.mul_sub_one]
  have hc : mask - 1 = 2 ^ t * (m - 1) + (2 ^ t - 1) := by
    rw [hmask, Nat.mul_sub_one]
    omega
  have hbits_sub : ∀ x, (mask - 2 ^ t).testBit x =
      (decide (x ≥ t) && (m - 1).testBit (x - t)) := by
    intro x
    rw [hms, show (2 : Nat) ^ t * (m - 1) = (m - 1) <<< t from by
      rw [Nat.shiftLeft_eq]; ring, Nat.testBit_shiftLeft]
  have hparity : ∀ y, (m - 1).testBit (y + 1) = m.testBit (y + 1) := by
    intro y
    rw [Nat.testBit_add_one, Nat.testBit_add_one]
    have hdm : m / 2 = (m - 1) / 2 := by omega
    rw [hdm]
  have hm1bit0 : (m - 1).testBit 0 = false := by
    rw [Nat.testBit_zero]
    simp
    omega
  have hbt : mask.testBit t = true := by
    rw [hbit t]
    simp [Nat.testBit_zero, hmodd]
  have hlowb : ∀ j, j < t → mask.testBit j = false := by
    intro j hj
    rw [hbit j]
    simp only [decide_eq_false (by omega : ¬ j ≥ t), Bool.false_and]
  have hsub1 : (mask - 1).testBit = fun i =>
      if i < t then true else (m - 1).testBit (i - t) := by
    funext i
    by_cases hit : i < t
    · rw [if_pos hit]
      have hlow64 : (mask - 1) % 2 ^ t = 2 ^ t - 1 := by
        rw [hc, Nat.mul_add_mod]
        exact Nat.mod_eq_of_lt (by omega)
      have := congrArg (fun x => x.testBit i) hlow64
      simp only [Nat.testBit_mod_two_pow] at this
      rw [decide_eq_true hit, Bool.true_and] at this
      rw [this, Nat.testBit_two_pow_sub_one, decide_eq_true hit]
    · rw [if_neg hit]
      have hd : (mask - 1) >>> t = m - 1 := by
        rw [hc, Nat.shiftRight_eq_div_pow, Nat.mul_add_div hp,
          Nat.div_eq_of_lt (by omega), Nat.add_zero]
      rw [show i = t + (i - t) from by omega, ← Nat.testBit_shiftRight, hd]
      congr 1
      omega
  have hA2 : mask &&& (mask - 1) = mask - 2 ^ t := by
    apply Nat.eq_of_testBit_eq
    intro i
    rw [Nat.testBit_and, hbits_sub i, hbit i, hsub1]
    by_cases hit : i < t
    · simp only [decide_eq_false (by omega : ¬ i ≥ t), Bool.false_and, Bool.false_eq,
        if_pos hit]
    · simp only [decide_eq_true (by omega : i ≥ t), Bool.true_and, if_neg hit]
      match hd : i - t with
      | 0 =>
        rw [hm1bit0]
        simp
      | y + 1 =>
        rw [hparity y]
        cases hbm : m.testBit (y + 1) <;> simp
  have hA1 : mask &&& (2 ^ 64 - mask) = 2 ^ t := by
    have hcc : (2 : Nat) ^ 64 - mask = 2 ^ t * (2 ^ (64 - t) - m) := by
      rw [hmask, Nat.mul_sub]
      congr 1
      rw [← Nat.pow_add]
      congr 1
      omega
    rw [hcc, hmask, two_pow_mul_and, odd_and_two_pow_sub (64 - t) m hmodd hmlt]
    ring
  have hK1 : ∀ x, (mask - 2 ^ t).testBit x = (mask.testBit x && !(decide (x = t))) := by
    intro x
    rw [hbits_sub x, hbit x]
    by_cases hxt : x < t
    · simp only [decide_eq_false (by omega : ¬ x ≥ t), Bool.false_and]
    · simp only [decide_eq_true (by omega : x ≥ t), Bool.true_and]
      match hd : x - t with
      | 0 =>
        have hx : x = t := by omega
        rw [hm1bit0, hx]
        simp
      | y + 1 =>
        have hx : ¬ x = t := by omega
        rw [hparity y]
        simp [hx]
  exact ⟨t, ht64, hbt, hlowb, hA1, hA2, htp, hK1⟩

/-! ## C1/C10 — PdepSlow loop specification -/

/-- Counting with one true position `t` masked out: ranges that do not reach
`t` are unchanged. -/
theorem countP_erase_le (f : Nat → Bool) (t : Nat) :
    ∀ n, n ≤ t →
      (List.range n).countP (fun i => f i && !(decide (i = t))) =
        (List.range n).countP f := by
  intro n hn
  apply countP_range_congr
  intro i hi
  have hne : ¬ i = t := by omega
  simp [hne]

/-- Counting with one true position `t` masked out: ranges past `t` lose
exactly one. -/
theorem countP_erase_lt (f : Nat → Bool) (t : Nat) (hft : f t = true) :
    ∀ n, t < n →
      (List.range n).countP (fun i => f i && !(decide (i = t))) + 1 =
        (List.range n).countP f := by
  intro n hn
  induction n with
  | zero => omega
  | succ n ih =>
    rw [List.range_succ, List.countP_append, List.countP_append]
    by_cases htn : t < n
    · have hrec := ih htn
      have hone : List.countP (fun i => f i && !(decide (i = t))) [n] =
          List.countP f [n] := by
        have hne : ¬ n = t := by omega
        simp [List.countP_cons, hne]
      omega
    · have ht : t = n := by omega
      subst ht
      rw [countP_erase_le f t t (le_refl t)]
      have h1 : List.countP (fun i => f i && !(decide (i = t))) [t] = 0 := by
        simp [List.countP_cons]
      have h2 : List.countP f [t] = 1 := by
        simp [List.countP_cons, hft]
      omega

/-- A range over which the predicate is everywhere false counts zero. -/
theorem countP_range_zero_of_false (f : Nat → Bool) (n : Nat)
    (h : ∀ j, j < n → f j = false) : (List.range n).countP f = 0 := by
  rw [List.countP_eq_zero]
  intro a ha
  simp only [Bool.not_eq_true]
  exact h a (List.mem_range.mp ha)

/-- `word & bb` with `bb = 2 ^ j` keeps just bit `j` of `word`. -/
theorem and_two_pow (w j : Nat) :
    w &&& 2 ^ j = if w.testBit j = true then 2 ^ j else 0 := by
  apply Nat.eq_of_testBit_eq
  intro k
  rw [Nat.testBit_and, Nat.testBit_two_pow]
  by_cases hkj : j = k
  · subst hkj
    cases hw : w.testBit j <;> simp [hw, Nat.testBit_two_pow, Nat.zero_testBit]
  · cases hw : w.testBit j <;>
      simp [hw, hkj, Nat.testBit_two_pow, Nat.zero_testBit]

/-- The loop condition `word & bb` (with `bb = 2 ^ j`) is nonzero exactly
when bit `j` of `word` is set. -/
theorem and_two_pow_ne_zero (w j : Nat) : (w &&& 2 ^ j ≠ 0) ↔ w.testBit j = true := by
  rw [and_two_pow]
  cases hw : w.testBit j <;> simp

/-- Invariant of the `PdepSlow` loop: with `bb = 2 ^ j`, the loop deposits
bit `j + rank(i)` of `word` at every still-set mask position `i` (where
`rank(i)` counts the set mask bits below `i`), on top of the accumulated
`result`. -/
theorem pdepLoop_spec : ∀ (fuel mask : Nat), popcount64 mask ≤ fuel → mask < 2 ^ 64 →
    ∀ (word j result i : Nat),
      (pdepLoop word fuel mask (2 ^ j) result).testBit i =
        (result.testBit i ||
          (mask.testBit i && word.testBit (j + (List.range i).countP mask.testBit))) := by
  intro fuel
  induction fuel with
  | zero =>
    intro mask hpc hm word j result i
    have hm0 : mask = 0 := (popcount64_zero_iff mask hm).mp (by omega)
    subst hm0
    rw [pdepLoop]
    simp [Nat.zero_testBit]
  | succ fuel ih =>
    intro mask hpc hm word j result i
    by_cases hm0 : mask = 0
    · subst hm0
      rw [pdepLoop, if_pos rfl]
      simp [Nat.zero_testBit]
    · rw [pdepLoop, if_neg hm0]
      obtain ⟨t, ht64, htbit, hlow, hA1, hA2, htle, hK1⟩ :=
        lowbit_decomp mask (by omega) hm
      rw [hA1, hA2]
      have hbb : 2 ^ j + 2 ^ j = 2 ^ (j + 1) := by ring
      rw [hbb]
      have hpc2 : popcount64 (mask - 2 ^ t) + 1 = popcount64 mask := by
        unfold popcount64
        rw [countP_range_congr 64 (fun x _ => hK1 x)]
        exact countP_erase_lt mask.testBit t htbit 64 ht64
      rw [ih (mask - 2 ^ t) (by omega) (by omega) word (j + 1) _ i]
      have hcnt : (List.range i).countP (mask - 2 ^ t).testBit =
          (List.range i).countP (fun x => mask.testBit x && !(decide (x = t))) :=
        countP_range_congr i (fun x _ => hK1 x)
      rcases Nat.lt_trichotomy i t with hit | hit | hit
      · have hmi : mask.testBit i = false := hlow i hit
        have hki : (mask - 2 ^ t).testBit i = false := by
          rw [hK1 i, hmi, Bool.false_and]
        rw [hki, hmi, Bool.false_and, Bool.false_and, Bool.or_false, Bool.or_false]
        by_cases hw : word &&& 2 ^ j ≠ 0
        · rw [if_pos hw, Nat.testBit_or, Nat.testBit_two_pow,
            decide_eq_false (by omega : ¬ t = i), Bool.or_false]
        · rw [if_neg hw]
      · subst hit
        have hki : (mask - 2 ^ i).testBit i = false := by
          rw [hK1 i]
          simp
        rw [hki, Bool.false_and, Bool.or_false, htbit, Bool.true_and,
          countP_range_zero_of_false mask.testBit i hlow, Nat.add_zero]
        by_cases hwj : word.testBit j = true
        · rw [if_pos ((and_two_pow_ne_zero word j).mpr hwj), Nat.testBit_or,
            Nat.testBit_two_pow, hwj]
          simp
        · have hwj2 : word.testBit j = false := by
            revert hwj
            cases word.testBit j <;> simp
          rw [if_neg (fun hc => hwj ((and_two_pow_ne_zero word j).mp hc)), hwj2,
            Bool.or_false]
      · have hki : (mask - 2 ^ t).testBit i = mask.testBit i := by
          rw [hK1 i, decide_eq_false (by omega : ¬ i = t), Bool.not_false, Bool.and_true]
        have hbig : (2 ^ t).testBit i = false := by
          rw [Nat.testBit_two_pow]
          exact decide_eq_false (by omega)
        have hres : (if word &&& 2 ^ j ≠ 0 then result ||| 2 ^ t else result).testBit i =
            result.testBit i := by
          by_cases hw : word &&& 2 ^ j ≠ 0
          · rw [if_pos hw, Nat.testBit_or, hbig, Bool.or_false]
          · rw [if_neg hw]
        have hlt := countP_erase_lt mask.testBit t htbit i hit
        have harg : j + 1 + (List.range i).countP (mask - 2 ^ t).testBit =
            j + (List.range i).countP mask.testBit := by
          rw [hcnt]
          omega
        rw [hres, hki, harg]

/-- Bit-level specification of `PdepSlow`: bit `i` of the result is mask bit
`i` AND bit `rank(i)` of `word`, where `rank(i)` counts the set mask bits
below `i` — through the main loop and both early-out branches. -/
theorem pdepSlow_spec (word mask : Nat) (hw : word < 2 ^ 64) (hm : mask < 2 ^ 64)
    (i : Nat) :
    (pdepSlow word mask).testBit i =
      (mask.testBit i && word.testBit ((List.range i).countP mask.testBit)) := by
  unfold pdepSlow
  by_cases h0 : word = 0 ∨ mask = 2 ^ 64 - 1
  · rw [if_pos h0]
    rcases h0 with h0 | h0
    · subst h0
      simp [Nat.zero_testBit]
    · subst h0
      have hmb : ∀ x, (2 ^ 64 - 1 : Nat).testBit x = decide (x < 64) := fun x =>
        Nat.testBit_two_pow_sub_one 64 x
      by_cases hi : i < 64
      · have hrank : (List.range i).countP (2 ^ 64 - 1 : Nat).testBit = i := by
          rw [countP_range_congr i (fun x hx => by
            rw [hmb x, decide_eq_true (by omega : x < 64)])]
          rw [List.countP_true, List.length_range]
        rw [hrank, hmb i, decide_eq_true hi, Bool.true_and]
      · rw [hmb i, decide_eq_false hi, Bool.false_and]
        exact testBit_ge_64 word hw i (by omega)
  · rw [if_neg h0]
    have hl := pdepLoop_spec 64 mask (popcount64_le mask) hm word 0 0 i
    rw [show (2 : Nat) ^ 0 = 1 from rfl] at hl
    rw [hl]
    simp [Nat.zero_testBit]

/-- `PdepSlow` stays within 64 bits when its inputs do. -/
theorem pdepSlow_lt (word mask : Nat) (hw : word < 2 ^ 64) (hm : mask < 2 ^ 64) :
    pdepSlow word mask < 2 ^ 64 := by
  apply lt_two_pow_of_high_bits
  intro i hi
  rw [pdepSlow_spec word mask hw hm i, testBit_ge_64 mask hm i hi, Bool.false_and]

/-! ## C1/C10 — the UpdateSetBits stream invariant -/

/-- The remaining update bit stream of a loop state: the buffered
`update_unused_bits` first, then the bits of the unread `update` words. -/
def stBit (st : UpdSt) (k : Nat) : Bool :=
  if k < st.unusedCount then st.unusedBits.testBit k
  else wordsBit st.upd (k - st.unusedCount)

/-- Invariant of the loop state: the buffer holds `unusedCount ≤ 64` live
bits and the unread words are 64-bit. -/
def StInv (st : UpdSt) : Prop :=
  st.unusedBits < 2 ^ st.unusedCount ∧ st.unusedCount ≤ 64 ∧
    ∀ w ∈ st.upd, w < 2 ^ 64

/-- Generalization of `testBit_ge_64` to any width bound. -/
theorem testBit_ge_of_lt (w c i : Nat) (hw : w < 2 ^ c) (hi : c ≤ i) :
    w.testBit i = false :=
  Nat.testBit_lt_two_pow
    (lt_of_lt_of_le hw (Nat.pow_le_pow_right (by norm_num) hi))

/-- Dropping a word shifts the global bit view by 64. -/
theorem wordsBit_tail (ws : List Nat) (q : Nat) (hq : 64 ≤ q) :
    wordsBit ws q = wordsBit ws.tail (q - 64) := by
  unfold wordsBit
  have h1 : (q - 64) % 64 = q % 64 := by omega
  have h2 : q / 64 = (q - 64) / 64 + 1 := by omega
  rw [h1, h2]
  cases ws with
  | nil => simp
  | cons a l => rw [List.tail_cons, List.getD_cons_succ]

/-- Within the first word, the global bit view is the word's bit. -/
theorem wordsBit_low (ws : List Nat) (q : Nat) (hq : q < 64) :
    wordsBit ws q = (ws.getD 0 0).testBit q := by
  unfold wordsBit
  rw [Nat.div_eq_of_lt hq, Nat.mod_eq_of_lt hq]

theorem headD_eq_getD (ws : List Nat) : ws.headD 0 = ws.getD 0 0 := by
  cases ws <;> rfl

/-- The rank of a set bit is below the word's popcount. -/
theorem rank_lt_popcount (w i : Nat) (hi : i < 64) (hw : w.testBit i = true) :
    (List.range i).countP w.testBit < popcount64 w := by
  unfold popcount64
  have h1 : (64 : Nat) = i + (64 - i) := by omega
  rw [h1, countP_range_add]
  have h2 : 0 < (List.range (64 - i)).countP (fun x => w.testBit (i + x)) := by
    have h4 : (64 - i) = 1 + (64 - i - 1) := by omega
    rw [h4, countP_range_add]
    have h5 : (List.range 1).countP (fun x => w.testBit (i + x)) = 1 := by
      simp [List.range_succ, List.countP_cons, hw]
    omega
  have h6 : (List.range i).countP w.testBit =
      (List.range i).countP (fun x => w.testBit x) := rfl
  omega

theorem popcount64_zero : popcount64 0 = 0 := by
  unfold popcount64
  exact countP_range_zero_of_false _ 64 (fun j _ => Nat.zero_testBit j)

/-- One step of the `UpdateSetBits` word loop: the
`PERFETTO_CHECK(unused_bits_count <= 64)` never trips, the state invariant is
preserved, the remaining update stream advances by `popcount(current)` bits,
and the produced word deposits the leading stream bits at `current`'s set
positions. -/
theorem updStep_spec (st : UpdSt) (current : Nat) (hinv : StInv st)
    (hc : current < 2 ^ 64) :
    ∃ w2 st2, updStep st current = some (w2, st2) ∧ StInv st2 ∧ w2 < 2 ^ 64 ∧
      (∀ k, stBit st2 k = stBit st (k + popcount64 current)) ∧
      (∀ i, w2.testBit i =
        (current.testBit i && stBit st ((List.range i).countP current.testBit))) := by
  obtain ⟨hbuf, huc64, hupw⟩ := hinv
  have hbuf64 : st.unusedBits < 2 ^ 64 :=
    lt_of_lt_of_le hbuf (Nat.pow_le_pow_right (by norm_num) huc64)
  by_cases hc0 : current = 0
  · refine ⟨current, st, ?_, ⟨hbuf, huc64, hupw⟩, by omega, ?_, ?_⟩
    · unfold updStep
      rw [if_pos hc0]
    · intro k
      rw [hc0, popcount64_zero, Nat.add_zero]
    · intro i
      rw [hc0, Nat.zero_testBit, Bool.false_and]
  · by_cases hp : popcount64 current ≤ st.unusedCount
    · refine ⟨pdep st.unusedBits current,
        ⟨st.upd,
          if popcount64 current = 64 then 0 else st.unusedBits >>> popcount64 current,
          st.unusedCount - popcount64 current⟩, ?_, ?_, ?_, ?_, ?_⟩
      · unfold updStep
        rw [if_neg hc0]
        simp only []
        rw [if_pos hp]
        split
        · rfl
        · rename_i hbad
          exact absurd (by omega : st.unusedCount - popcount64 current ≤ 64) hbad
      · refine ⟨?_, ?_, ?_⟩
        · show (if popcount64 current = 64 then 0
              else st.unusedBits >>> popcount64 current) <
            2 ^ (st.unusedCount - popcount64 current)
          by_cases hp64 : popcount64 current = 64
          · rw [if_pos hp64]
            exact Nat.pos_pow_of_pos _ (by norm_num)
          · rw [if_neg hp64, Nat.shiftRight_eq_div_pow]
            rw [Nat.div_lt_iff_lt_mul (Nat.pos_pow_of_pos _ (by norm_num)),
              ← Nat.pow_add]
            have he : st.unusedCount - popcount64 current + popcount64 current =
                st.unusedCount := by omega
            rw [he]
            exact hbuf
        · show st.unusedCount - popcount64 current ≤ 64
          omega
        · exact hupw
      · exact pdepSlow_lt st.unusedBits current hbuf64 hc
      · intro k
        have hnb : ∀ x, (if popcount64 current = 64 then 0
            else st.unusedBits >>> popcount64 current).testBit x =
            st.unusedBits.testBit (popcount64 current + x) := by
          intro x
          by_cases hp64 : popcount64 current = 64
          · rw [if_pos hp64, Nat.zero_testBit, hp64]
            exact (testBit_ge_of_lt st.unusedBits 64 (64 + x) hbuf64 (by omega)).symm
          · rw [if_neg hp64, Nat.testBit_shiftRight]
        unfold stBit
        simp only []
        by_cases hk : k < st.unusedCount - popcount64 current
        · rw [if_pos hk, if_pos (by omega : k + popcount64 current < st.unusedCount),
            hnb k]
          congr 1
          omega
        · rw [if_neg hk,
            if_neg (by omega : ¬ k + popcount64 current < st.unusedCount)]
          congr 1
          omega
      · intro i
        rw [show pdep st.unusedBits current = pdepSlow st.unusedBits current from rfl,
          pdepSlow_spec st.unusedBits current hbuf64 hc i]
        by_cases hcb : current.testBit i = true
        · have hi64 : i < 64 := by
            by_contra hi
            rw [testBit_ge_64 current hc i (by omega)] at hcb
            exact absurd hcb (by simp)
          have hrk := rank_lt_popcount current i hi64 hcb
          rw [hcb, Bool.true_and, Bool.true_and]
          unfold stBit
          rw [if_pos (by omega : (List.range i).countP current.testBit <
            st.unusedCount)]
        · have hcb2 : current.testBit i = false := by
            revert hcb
            cases current.testBit i <;> simp
          rw [hcb2, Bool.false_and, Bool.false_and]
    · have hple : popcount64 current ≤ 64 := popcount64_le current
      have hnext : st.upd.headD 0 < 2 ^ 64 := by
        cases hu : st.upd with
        | nil => norm_num
        | cons a l =>
          have hmem : a ∈ st.upd := by
            rw [hu]
            exact List.mem_cons_self a l
          simpa using hupw a hmem
      have hX64 : st.unusedBits |||
          ((st.upd.headD 0 <<< st.unusedCount) % 2 ^ 64) < 2 ^ 64 := by
        apply lt_two_pow_of_high_bits
        intro r hr
        rw [Nat.testBit_or, testBit_ge_of_lt _ 64 r hbuf64 hr,
          testBit_ge_of_lt _ 64 r (Nat.mod_lt _ (Nat.pos_pow_of_pos _ (by norm_num))) hr]
        rfl
      have hX : ∀ r, r < 64 →
          (st.unusedBits ||| ((st.upd.headD 0 <<< st.unusedCount) % 2 ^ 64)).testBit r =
            stBit st r := by
        intro r hr
        rw [Nat.testBit_or, Nat.testBit_mod_two_pow, decide_eq_true hr, Bool.true_and,
          Nat.testBit_shiftLeft]
        unfold stBit
        by_cases hru : r < st.unusedCount
        · rw [if_pos hru, decide_eq_false (by omega : ¬ r ≥ st.unusedCount),
            Bool.false_and, Bool.or_false]
        · rw [if_neg hru, decide_eq_true (by omega : r ≥ st.unusedCount),
            Bool.true_and, testBit_ge_of_lt st.unusedBits st.unusedCount r hbuf
              (by omega), Bool.false_or, wordsBit_low st.upd (r - st.unusedCount)
              (by omega), headD_eq_getD]
      refine ⟨pdep (st.unusedBits ||| ((st.upd.headD 0 <<< st.unusedCount) % 2 ^ 64))
          current,
        ⟨st.upd.tail,
          if popcount64 current - st.unusedCount = 64 then 0
          else st.upd.headD 0 >>> (popcount64 current - st.unusedCount),
          64 - (popcount64 current - st.unusedCount)⟩, ?_, ?_, ?_, ?_, ?_⟩
      · unfold updStep
        rw [if_neg hc0]
        simp only []
        rw [if_neg hp]
        split
        · rfl
        · rename_i hbad
          exact absurd (by omega : 64 - (popcount64 current - st.unusedCount) ≤ 64)
            hbad
      · refine ⟨?_, ?_, fun w hw => hupw w (List.mem_of_mem_tail hw)⟩
        · show (if popcount64 current - st.unusedCount = 64 then 0
              else st.upd.headD 0 >>> (popcount64 current - st.unusedCount)) <
            2 ^ (64 - (popcount64 current - st.unusedCount))
          by_cases hu64 : popcount64 current - st.unusedCount = 64
          · rw [if_pos hu64]
            exact Nat.pos_pow_of_pos _ (by norm_num)
          · rw [if_neg hu64, Nat.shiftRight_eq_div_pow]
            rw [Nat.div_lt_iff_lt_mul (Nat.pos_pow_of_pos _ (by norm_num)),
              ← Nat.pow_add]
            have he : 64 - (popcount64 current - st.unusedCount) +
                (popcount64 current - st.unusedCount) = 64 := by omega
            rw [he]
            exact hnext
        · show 64 - (popcount64 current - st.unusedCount) ≤ 64
          omega
      · exact pdepSlow_lt _ current hX64 hc
      · intro k
        have hnb2 : ∀ x, (if popcount64 current - st.unusedCount = 64 then 0
            else st.upd.headD 0 >>> (popcount64 current - st.unusedCount)).testBit x =
            (st.upd.headD 0).testBit (popcount64 current - st.unusedCount + x) := by
          intro x
          by_cases hu64 : popcount64 current - st.unusedCount = 64
          · rw [if_pos hu64, Nat.zero_testBit, hu64]
            exact (testBit_ge_of_lt _ 64 (64 + x) hnext (by omega)).symm
          · rw [if_neg hu64, Nat.testBit_shiftRight]
        have hright : stBit st (k + popcount64 current) =
            wordsBit st.upd (k + (popcount64 current - st.unusedCount)) := by
          unfold stBit
          rw [if_neg (by omega : ¬ k + popcount64 current < st.unusedCount)]
          congr 1
          omega
        rw [hright]
        unfold stBit
        simp only []
        by_cases hk : k < 64 - (popcount64 current - st.unusedCount)
        · rw [if_pos hk, hnb2 k,
            wordsBit_low st.upd (k + (popcount64 current - st.unusedCount))
              (by omega), headD_eq_getD]
          congr 1
          omega
        · rw [if_neg hk,
            wordsBit_tail st.upd (k + (popcount64 current - st.unusedCount))
              (by omega)]
          congr 1
          omega
      · intro i
        rw [show pdep (st.unusedBits |||
            ((st.upd.headD 0 <<< st.unusedCount) % 2 ^ 64)) current =
            pdepSlow (st.unusedBits |||
              ((st.upd.headD 0 <<< st.unusedCount) % 2 ^ 64)) current from rfl,
          pdepSlow_spec _ current hX64 hc i]
        by_cases hcb : current.testBit i = true
        · have hi64 : i < 64 := by
            by_contra hi
            rw [testBit_ge_64 current hc i (by omega)] at hcb
            exact absurd hcb (by simp)
          have hrk := rank_lt_popcount current i hi64 hcb
          rw [hcb, Bool.true_and, Bool.true_and]
          exact hX ((List.range i).countP current.testBit) (by omega)
        · have hcb2 : current.testBit i = false := by
            revert hcb
            cases current.testBit i <;> simp
          rw [hcb2, Bool.false_and, Bool.false_and]

/-- Popcount prefix sums over a cons-list of words. -/
theorem popSum_cons (w : Nat) (ws : List Nat) (n : Nat) :
    ((List.range (n + 1)).map (fun j => popcount64 ((w :: ws).getD j 0))).sum =
      popcount64 w + ((List.range n).map (fun j => popcount64 (ws.getD j 0))).sum := by
  rw [List.range_succ_eq_map, List.map_cons, List.sum_cons, List.map_map]
  rfl

/-- The `UpdateSetBits` word loop: no `PERFETTO_CHECK` ever trips, the output
has one 64-bit word per input word, bit `i` of output word `idx` is the
corresponding input bit ANDed with the update-stream bit at that input bit's
rank, and the final state has consumed one stream bit per set input bit. -/
theorem updLoop_spec : ∀ (ws : List Nat) (st : UpdSt), StInv st →
    (∀ w ∈ ws, w < 2 ^ 64) →
    ∃ ws2 st3, updLoop st ws = some (ws2, st3) ∧ StInv st3 ∧
      ws2.length = ws.length ∧ (∀ w ∈ ws2, w < 2 ^ 64) ∧
      (∀ k, stBit st3 k =
        stBit st (k + ((List.range ws.length).map
          (fun j => popcount64 (ws.getD j 0))).sum)) ∧
      (∀ idx i, idx < ws.length →
        (ws2.getD idx 0).testBit i =
          ((ws.getD idx 0).testBit i &&
            stBit st (((List.range idx).map
                (fun j => popcount64 (ws.getD j 0))).sum +
              (List.range i).countP (ws.getD idx 0).testBit))) := by
  intro ws
  induction ws with
  | nil =>
    intro st hinv _
    refine ⟨[], st, rfl, hinv, rfl, by intro w hw; simp at hw, ?_, ?_⟩
    · intro k
      simp
    · intro idx i hidx
      simp at hidx
  | cons w ws ih =>
    intro st hinv hws
    have hw64 : w < 2 ^ 64 := hws w (List.mem_cons_self w ws)
    obtain ⟨w2, st2, hstep, hinv2, hw264, hadv, hdep⟩ := updStep_spec st w hinv hw64
    obtain ⟨ws2, st3, hloop, hinv3, hlen, hmem, hadv2, hdep2⟩ :=
      ih st2 hinv2 (fun x hx => hws x (List.mem_cons_of_mem w hx))
    refine ⟨w2 :: ws2, st3, ?_, hinv3, by simpa using hlen, ?_, ?_, ?_⟩
    · simp only [updLoop, hstep, hloop]
    · intro x hx
      rcases List.mem_cons.mp hx with hx | hx
      · rw [hx]
        exact hw264
      · exact hmem x hx
    · intro k
      rw [hadv2 k, hadv, List.length_cons, popSum_cons]
      congr 1
      omega
    · intro idx i hidx
      cases idx with
      | zero =>
        rw [List.getD_cons_zero, List.getD_cons_zero, hdep i]
        congr 2
        simp
      | succ idx =>
        rw [List.getD_cons_succ, List.getD_cons_succ,
          hdep2 idx i (by simpa using hidx), hadv, popSum_cons]
        congr 2
        omega

/-! ## C1/C10 — result assembly of UpdateSetBits -/

theorem wordCount_le_blockWords (s : Nat) : wordCount s ≤ 8 * blockCount s := by
  unfold wordCount blockCount
  omega

theorem size_le_64_wordCount (s : Nat) : s ≤ 64 * wordCount s := by
  unfold wordCount
  omega

theorem getD_range (n i : Nat) (h : i < n) : (List.range n).getD i 0 = i := by
  rw [List.getD_eq_getElem?_getD, List.getElem?_range h]
  rfl

theorem recountsKeepHead_length (c0 : Nat) (ws : List Nat) (n : Nat) :
    (recountsKeepHead c0 ws n).length = n := by
  unfold recountsKeepHead
  rw [List.length_map, List.length_range]

theorem recountsKeepHead_getD (c0 : Nat) (ws : List Nat) (n i : Nat) (hi : i < n) :
    (recountsKeepHead c0 ws n).getD i 0 = c0 + sumPops ws i := by
  unfold recountsKeepHead
  rw [getD_map_zero _ _ _ (by rw [List.length_range]; exact hi), getD_range n i hi]

/-- The block-popcount prefix sums are the true prefix bit counts. -/
theorem sumPops_eq_countP (ws : List Nat) : ∀ i,
    sumPops ws i = (List.range (512 * i)).countP (wordsBit ws) := by
  intro i
  induction i with
  | zero => simp [sumPops]
  | succ i ih =>
    rw [sumPops, ih, blockPop_eq_countP]
    have h2 : 512 * (i + 1) = 512 * i + 512 := by ring
    rw [h2, countP_range_add]

/-- No prefix bit count of a well-formed vector exceeds its size. -/
theorem countP_le_size (bv : BitVector) (h : WF bv) (m : Nat) :
    (List.range m).countP bv.isSet ≤ bv.size := by
  by_cases hm : m ≤ bv.size
  · calc (List.range m).countP bv.isSet ≤ (List.range m).length :=
      List.countP_le_length _
    _ = m := List.length_range m
    _ ≤ bv.size := hm
  · have hsplit : (List.range m).countP bv.isSet =
        (List.range bv.size).countP bv.isSet +
          (List.range (m - bv.size)).countP (fun i => bv.isSet (bv.size + i)) := by
      conv_lhs => rw [show m = bv.size + (m - bv.size) from by omega]
      rw [countP_range_add]
    have hz : (List.range (m - bv.size)).countP (fun i => bv.isSet (bv.size + i)) = 0 :=
      countP_range_zero_of_false _ _ (fun j hj => isSet_ge_size bv h _ (by omega))
    have hle : (List.range bv.size).countP bv.isSet ≤ bv.size := by
      calc (List.range bv.size).countP bv.isSet ≤ (List.range bv.size).length :=
        List.countP_le_length _
      _ = bv.size := List.length_range _
    omega

/-- Truncating the storage to `WordCount(size)` words does not change any
bit of a well-formed vector. -/
theorem wordsBit_take_wordCount (bv : BitVector) (h : WF bv) (k : Nat) :
    wordsBit (bv.words.take (wordCount bv.size)) k = wordsBit bv.words k := by
  by_cases hk : k < 64 * wordCount bv.size
  · unfold wordsBit
    rw [getD_take bv.words (wordCount bv.size) (k / 64) 0 (by omega)]
  · have hs : bv.size ≤ k := le_trans (size_le_64_wordCount bv.size) (by omega)
    rw [wordsBit_ge_size bv h k hs]
    unfold wordsBit
    rw [List.getD_eq_default _ _ (show (bv.words.take (wordCount bv.size)).length ≤
      k / 64 by rw [List.length_take]; omega)]
    exact Nat.zero_testBit _

/-- The sequential recount pass starting from `counts[0] = 0` re-establishes
all representation invariants over any word array with clear trailing
padding and bounded prefix counts. -/
theorem WF_recounts (ws : List Nat) (size : Nat)
    (hsz : size < 2 ^ 32)
    (hlen : ws.length = 8 * blockCount size)
    (hw : ∀ w ∈ ws, w < 2 ^ 64)
    (hpadding : ∀ p, size ≤ p → wordsBit ws p = false)
    (hcount : ∀ m, (List.range m).countP (wordsBit ws) < 2 ^ 32) :
    WF ⟨ws, recountsKeepHead 0 ws (blockCount size), size⟩ := by
  have hcl2 : (recountsKeepHead 0 ws (blockCount size)).length = blockCount size :=
    recountsKeepHead_length 0 ws _
  refine ⟨hcl2, ?_, hsz, hw, ?_, ?_, ?_, ?_⟩
  · show ws.length = 8 * (recountsKeepHead 0 ws (blockCount size)).length
    rw [hcl2]
    exact hlen
  · intro c hc
    obtain ⟨i, hi, hval⟩ := List.mem_map.mp hc
    rw [← hval, Nat.zero_add, sumPops_eq_countP]
    exact hcount _
  · show (recountsKeepHead 0 ws (blockCount size)).getD 0 0 = 0
    by_cases hn : 0 < blockCount size
    · rw [recountsKeepHead_getD 0 ws _ 0 hn]
      simp [sumPops]
    · have hn0 : blockCount size = 0 := by omega
      rw [hn0]
      rfl
  · show ∀ i < (recountsKeepHead 0 ws (blockCount size)).length, 0 < i →
      (recountsKeepHead 0 ws (blockCount size)).getD i 0 =
        (recountsKeepHead 0 ws (blockCount size)).getD (i - 1) 0 +
          blockPop ws (i - 1)
    intro i hi hpos
    rw [recountsKeepHead_length] at hi
    obtain ⟨j, rfl⟩ : ∃ j, i = j + 1 := ⟨i - 1, by omega⟩
    rw [Nat.add_sub_cancel, recountsKeepHead_getD 0 ws _ (j + 1) hi,
      recountsKeepHead_getD 0 ws _ j (by omega)]
    show 0 + sumPops ws (j + 1) = 0 + sumPops ws j + blockPop ws j
    rw [sumPops]
    omega
  · show ∀ p < 64 * ws.length, size ≤ p → wordsBit ws p = false
    intro p _ hp
    exact hpadding p hp

/-- Master specification of `UpdateSetBits` in the non-degenerate case: no
`PERFETTO_CHECK` trips, the size is kept, the representation invariants are
re-established, and bit `p` of the result is bit `p` of `this` ANDed with the
update bit at `p`'s set-bit rank in `this`. -/
theorem updateSetBits_spec (bv update : BitVector) (hb : WF bv) (hu : WF update)
    (h1 : update.countSetBits ≠ 0) (h2 : bv.countSetBits ≠ 0) :
    ∃ r, bv.updateSetBits update = some r ∧ r.size = bv.size ∧ WF r ∧
      ∀ p, r.isSet p =
        (bv.isSet p && update.isSet ((List.range p).countP bv.isSet)) := by
  have hwclen : wordCount bv.size ≤ bv.words.length := by
    rw [hb.2.1, hb.1]
    exact wordCount_le_blockWords bv.size
  have hinv0 : StInv ⟨update.words.take (wordCount update.size), 0, 0⟩ := by
    refine ⟨?_, ?_, ?_⟩
    · show (0 : Nat) < 2 ^ 0
      norm_num
    · show (0 : Nat) ≤ 64
      norm_num
    · intro w hw
      exact hu.2.2.2.1 w (List.mem_of_mem_take hw)
  have hproc64 : ∀ w ∈ bv.words.take (wordCount bv.size), w < 2 ^ 64 :=
    fun w hw => hb.2.2.2.1 w (List.mem_of_mem_take hw)
  obtain ⟨ws2, st3, hloop, hinv3, hlen2, hmem2, hadv2, hdep2⟩ :=
    updLoop_spec (bv.words.take (wordCount bv.size))
      ⟨update.words.take (wordCount update.size), 0, 0⟩ hinv0 hproc64
  have hlenp : (bv.words.take (wordCount bv.size)).length = wordCount bv.size := by
    rw [List.length_take]
    omega
  have hws2len : ws2.length = wordCount bv.size := by
    rw [hlen2, hlenp]
  have hst0 : ∀ k, stBit ⟨update.words.take (wordCount update.size), 0, 0⟩ k =
      update.isSet k := by
    intro k
    show (if k < 0 then (0 : Nat).testBit k
      else wordsBit (update.words.take (wordCount update.size)) (k - 0)) =
        update.isSet k
    rw [if_neg (by omega : ¬ k < 0), Nat.sub_zero]
    exact wordsBit_take_wordCount update hu k
  have hbits : ∀ p, wordsBit (ws2 ++ bv.words.drop (wordCount bv.size)) p =
      (bv.isSet p && update.isSet ((List.range p).countP bv.isSet)) := by
    intro p
    by_cases hp : p < 64 * wordCount bv.size
    · have hidx : p / 64 < wordCount bv.size := by omega
      have hTproc : (bv.words.take (wordCount bv.size)).getD (p / 64) 0 =
          bv.words.getD (p / 64) 0 :=
        getD_take bv.words (wordCount bv.size) (p / 64) 0 hidx
      have hLHS : wordsBit (ws2 ++ bv.words.drop (wordCount bv.size)) p =
          (ws2.getD (p / 64) 0).testBit (p % 64) := by
        unfold wordsBit
        rw [List.getD_append _ _ _ _ (by rw [hws2len]; exact hidx)]
      rw [hLHS, hdep2 (p / 64) (p % 64) (by rw [hlenp]; exact hidx), hTproc, hst0]
      have hbp : bv.isSet p = (bv.words.getD (p / 64) 0).testBit (p % 64) := rfl
      have hrank : (List.range p).countP bv.isSet =
          ((List.range (p / 64)).map
            (fun j => popcount64 ((bv.words.take (wordCount bv.size)).getD j 0))).sum +
          (List.range (p % 64)).countP (bv.words.getD (p / 64) 0).testBit := by
        have hsplit : (List.range p).countP bv.isSet =
            (List.range (64 * (p / 64))).countP bv.isSet +
              (List.range (p % 64)).countP (fun i => bv.isSet (64 * (p / 64) + i)) := by
          conv_lhs => rw [show p = 64 * (p / 64) + p % 64 from by omega]
          rw [countP_range_add]
        rw [hsplit]
        congr 1
        · have hA : (List.range (64 * (p / 64))).countP bv.isSet =
              (List.range (64 * (p / 64))).countP
                (fun i => wordsBit (bv.words.take (wordCount bv.size)) (64 * 0 + i)) := by
            apply countP_range_congr
            intro i hi
            rw [show 64 * 0 + i = i from by omega, wordsBit_take_wordCount bv hb i]
            rfl
          rw [hA, countP_words_span (bv.words.take (wordCount bv.size)) 0 (p / 64)]
          congr 1
          apply List.map_congr_left
          intro a ha
          simp
        · apply countP_range_congr
          intro i hi
          show wordsBit bv.words (64 * (p / 64) + i) =
            (bv.words.getD (p / 64) 0).testBit i
          unfold wordsBit
          have hd : (64 * (p / 64) + i) / 64 = p / 64 := by omega
          have hm : (64 * (p / 64) + i) % 64 = i := by omega
          rw [hd, hm]
      rw [hbp, hrank]
    · have hsp : bv.size ≤ p := le_trans (size_le_64_wordCount bv.size) (by omega)
      rw [isSet_ge_size bv hb p hsp, Bool.false_and]
      unfold wordsBit
      rw [List.getD_append_right _ _ _ _
        (show ws2.length ≤ p / 64 by rw [hws2len]; omega)]
      rw [getD_drop, hws2len]
      have he : wordCount bv.size + (p / 64 - wordCount bv.size) = p / 64 := by omega
      rw [he]
      exact wordsBit_ge_size bv hb p hsp
  refine ⟨⟨ws2 ++ bv.words.drop (wordCount bv.size),
      recountsKeepHead (bv.counts.getD 0 0)
        (ws2 ++ bv.words.drop (wordCount bv.size)) bv.counts.length, bv.size⟩,
    ?_, rfl, ?_, ?_⟩
  · unfold BitVector.updateSetBits
    rw [if_neg (not_or.mpr ⟨h1, h2⟩)]
    simp only []
    rw [hloop]
  · have e1 : bv.counts.getD 0 0 = 0 := hb.2.2.2.2.2.1
    have e2 : bv.counts.length = blockCount bv.size := hb.1
    rw [e1, e2]
    apply WF_recounts
    · exact hb.2.2.1
    · rw [List.length_append, hws2len, List.length_drop, hb.2.1, hb.1]
      have := wordCount_le_blockWords bv.size
      omega
    · intro w hw
      rcases List.mem_append.mp hw with hw | hw
      · exact hmem2 w hw
      · exact hb.2.2.2.1 w (List.mem_of_mem_drop hw)
    · intro p hp
      rw [hbits p, isSet_ge_size bv hb p hp, Bool.false_and]
    · intro m
      have hmono : (List.range m).countP
          (wordsBit (ws2 ++ bv.words.drop (wordCount bv.size))) ≤
          (List.range m).countP bv.isSet := by
        apply List.countP_mono_left
        intro a ha hpa
        rw [hbits a] at hpa
        cases hba : bv.isSet a
        · rw [hba, Bool.false_and] at hpa
          exact hpa
        · rfl
      have hle := countP_le_size bv hb m
      have hs32 := hb.2.2.1
      omega
  · intro p
    exact hbits p

/-- C1: for every `this` and `update` with at least one set bit each and
`update.size ≤ this.CountSetBits()` (the `PERFETTO_DCHECK` precondition),
`UpdateSetBits` succeeds without tripping a check, keeps the size, writes bit
`k` of `update` at the position of the `k`-th set bit (0-indexed, ascending)
of the original `this` for every `k < update.size`, and leaves every
originally-unset position unset. -/
theorem C1_updateSetBits (bv update : BitVector) (hb : WF bv) (hu : WF update)
    (h1 : update.countSetBits ≠ 0) (h2 : bv.countSetBits ≠ 0)
    (hpre : update.size ≤ bv.countSetBits) :
    ∃ r, bv.updateSetBits update = some r ∧ r.size = bv.size ∧
      (∀ k, k < update.size →
        r.isSet (((List.range bv.size).filter bv.isSet).getD k 0) =
          update.isSet k) ∧
      (∀ p, bv.isSet p = false → r.isSet p = false) := by
  obtain ⟨r, heq, hsize, hwf, hbit⟩ := updateSetBits_spec bv update hb hu h1 h2
  refine ⟨r, heq, hsize, ?_, ?_⟩
  · intro k hk
    have hklen : k < ((List.range bv.size).filter bv.isSet).length := by
      rw [← List.countP_eq_length_filter]
      have hcnt := countSetBits_eq_isSet bv hb
      omega
    obtain ⟨hrk, hset, hlt⟩ := select_spec bv.isSet bv.size k hklen
    rw [hbit, hset, Bool.true_and, hrk]
  · intro p hp
    rw [hbit p, hp, Bool.false_and]

/-- Witness for C1 at the spec's example: `this = exA` with set bits
{1,3,4} (size 6) and `update = exUpd = [0,1,1]` (size 3). -/
theorem C1_witness :
    WF exA ∧ WF exUpd ∧ exUpd.countSetBits ≠ 0 ∧ exA.countSetBits ≠ 0 ∧
      exUpd.size ≤ exA.countSetBits ∧
      (∃ r, exA.updateSetBits exUpd = some r ∧ r.size = exA.size ∧
        (∀ k, k < exUpd.size →
          r.isSet (((List.range exA.size).filter exA.isSet).getD k 0) =
            exUpd.isSet k) ∧
        (∀ p, exA.isSet p = false → r.isSet p = false)) :=
  ⟨by decide, by decide, by decide, by decide, by decide,
    C1_updateSetBits exA exUpd (by decide) (by decide) (by decide) (by decide)
      (by decide)⟩

/-- C10: in the non-degenerate case with the precondition satisfied,
`update` acts as if zero-padded up to `this.CountSetBits()` bits: every
original set bit of ordinal `k ≥ update.size` is cleared in the result, and
the result's total set-bit count is exactly `update.CountSetBits()`. -/
theorem C10_zero_padding (bv update : BitVector) (hb : WF bv) (hu : WF update)
    (h1 : update.countSetBits ≠ 0) (h2 : bv.countSetBits ≠ 0)
    (hpre : update.size ≤ bv.countSetBits) :
    ∃ r, bv.updateSetBits update = some r ∧
      (∀ k, update.size ≤ k → k < bv.countSetBits →
        r.isSet (((List.range bv.size).filter bv.isSet).getD k 0) = false) ∧
      r.countSetBits = update.countSetBits := by
  obtain ⟨r, heq, hsize, hwf, hbit⟩ := updateSetBits_spec bv update hb hu h1 h2
  refine ⟨r, heq, ?_, ?_⟩
  · intro k hk1 hk2
    have hklen : k < ((List.range bv.size).filter bv.isSet).length := by
      rw [← List.countP_eq_length_filter]
      have hcnt := countSetBits_eq_isSet bv hb
      omega
    obtain ⟨hrk, hset, hlt⟩ := select_spec bv.isSet bv.size k hklen
    rw [hbit, hset, Bool.true_and, hrk]
    exact isSet_ge_size update hu k hk1
  · have hcv : (List.range bv.size).countP r.isSet =
        (List.range bv.size).countP
          (fun p => bv.isSet p && update.isSet ((List.range p).countP bv.isSet)) :=
      countP_range_congr bv.size (fun p _ => hbit p)
    rw [countSetBits_eq_isSet r hwf, hsize, hcv,
      countP_reindex bv.isSet update.isSet bv.size, ← countSetBits_eq_isSet bv hb,
      countSetBits_eq_isSet update hu]
    conv_lhs => rw [show bv.countSetBits =
      update.size + (bv.countSetBits - update.size) from by omega]
    rw [countP_range_add]
    have hz : (List.range (bv.countSetBits - update.size)).countP
        (fun i => update.isSet (update.size + i)) = 0 :=
      countP_range_zero_of_false _ _ (fun j hj => isSet_ge_size update hu _ (by omega))
    rw [hz, Nat.add_zero]

/-- Witness for C10 at `this = exA` (three set bits) and the one-bit update
`exUpdSmall`, whose size 1 is strictly below `exA.CountSetBits() = 3`. -/
theorem C10_witness :
    WF exA ∧ WF exUpdSmall ∧ exUpdSmall.countSetBits ≠ 0 ∧
      exA.countSetBits ≠ 0 ∧ exUpdSmall.size ≤ exA.countSetBits ∧
      exUpdSmall.size < exA.countSetBits ∧
      (∃ r, exA.updateSetBits exUpdSmall = some r ∧
        (∀ k, exUpdSmall.size ≤ k → k < exA.countSetBits →
          r.isSet (((List.range exA.size).filter exA.isSet).getD k 0) = false) ∧
        r.countSetBits = exUpdSmall.countSetBits) :=
  ⟨by decide, by decide, by decide, by decide, by decide, by decide,
    C10_zero_padding exA exUpdSmall (by decide) (by decide) (by decide) (by decide)
      (by decide)⟩

/-! ## C6 — degenerate rule of UpdateSetBits -/

/-- C6: if `update` has zero set bits or `this` has zero set bits,
`UpdateSetBits` resets `this` to the fully empty `BitVector` (size 0, no
storage), regardless of the original sizes. -/
theorem C6_updateSetBits_degenerate (bv update : BitVector)
    (h : update.countSetBits = 0 ∨ bv.countSetBits = 0) :
    bv.updateSetBits update = some BitVector.empty := by
  unfold BitVector.updateSetBits
  rw [if_pos h]

/-- Witness for C6 at a concrete input: `exA` (size 6, three set bits)
updated by the zero-bit `exUpdZero` (size 3) collapses to the empty
vector. -/
theorem C6_witness :
    (exUpdZero.countSetBits = 0 ∨ exA.countSetBits = 0) ∧
    exA.updateSetBits exUpdZero = some BitVector.empty :=
  ⟨Or.inl (by decide), C6_updateSetBits_degenerate exA exUpdZero (Or.inl (by decide))⟩

/-! ## C7 — fail-fast precondition violations -/

/-- C7: precondition violations abort instead of returning a result: `Or`
with mismatched sizes hits `PERFETTO_CHECK` (modelled as `none`), and
`UpdateSetBits` with `update.size > CountSetBits()` outside the degenerate
zero-popcount rule hits the (spec-modelled fail-fast) `PERFETTO_DCHECK`. -/
theorem C7_preconditions_fail_fast :
    (∀ a b : BitVector, a.size ≠ b.size → a.or b = none) ∧
    (∀ bv update : BitVector, ¬(update.countSetBits = 0 ∨ bv.countSetBits = 0) →
      bv.countSetBits < update.size → bv.updateSetBitsChecked update = none) := by
  constructor
  · intro a b h
    unfold BitVector.or
    rw [if_pos h]
  · intro bv update hdeg hlt
    unfold BitVector.updateSetBitsChecked
    rw [if_neg hdeg, if_neg (by omega)]

/-- Witness for C7 at concrete inputs: `Or` of sizes 5 and 6 aborts, and
updating `exV` (3 set bits) with the 4-bit `exUpdBig` aborts. -/
theorem C7_witness :
    (exV.size ≠ exA.size ∧ exV.or exA = none) ∧
    (¬(exUpdBig.countSetBits = 0 ∨ exV.countSetBits = 0) ∧
      exV.countSetBits < exUpdBig.size ∧
      exV.updateSetBitsChecked exUpdBig = none) :=
  ⟨⟨by decide, C7_preconditions_fail_fast.1 exV exA (by decide)⟩,
   ⟨by decide, by decide,
    C7_preconditions_fail_fast.2 exV exUpdBig (by decide) (by decide)⟩⟩

/-! ## C3 — Deserialize performs no validation -/

/-- C3 counterexample: the serialized input declaring `size = 64` with both
arrays absent is inconsistent (64 bits need one block of storage), yet
`Deserialize` accepts it without any decode error, producing a `BitVector`
that violates the representation invariants; and a `counts` blob of 5 bytes
(not a multiple of 4) is silently truncated to one element rather than
rejected. -/
theorem C3_counterexample :
    deserializeInto BitVector.empty ⟨64, none, none⟩ = ⟨[], [], 64⟩ ∧
    ¬ WF (deserializeInto BitVector.empty ⟨64, none, none⟩) ∧
    (deserializeInto BitVector.empty
      ⟨512, some [1, 0, 0, 0, 9], some (List.replicate 64 0)⟩).counts = [1] := by
  refine ⟨rfl, by decide, by decide⟩

/-- Helper: `bytesToU32s` decodes exactly `⌊length / 4⌋` values. -/
theorem length_bytesToU32s : ∀ bs : List Nat, (bytesToU32s bs).length = bs.length / 4
  | b0 :: b1 :: b2 :: b3 :: rest => by
    rw [bytesToU32s, List.length_cons, length_bytesToU32s rest]
    simp only [List.length_cons]
    omega
  | [] => by simp [bytesToU32s]
  | [_] => by simp [bytesToU32s]
  | [_, _] => by simp [bytesToU32s]
  | [_, _, _] => by simp [bytesToU32s]

/-- Helper: `bytesToU64s` decodes exactly `⌊length / 8⌋` values. -/
theorem length_bytesToU64s : ∀ bs : List Nat, (bytesToU64s bs).length = bs.length / 8
  | b0 :: b1 :: b2 :: b3 :: b4 :: b5 :: b6 :: b7 :: rest => by
    rw [bytesToU64s, List.length_cons, length_bytesToU64s rest]
    simp only [List.length_cons]
    omega
  | [] => by simp [bytesToU64s]
  | [_] => by simp [bytesToU64s]
  | [_, _] => by simp [bytesToU64s]
  | [_, _, _] => by simp [bytesToU64s]
  | [_, _, _, _] => by simp [bytesToU64s]
  | [_, _, _, _, _] => by simp [bytesToU64s]
  | [_, _, _, _, _, _] => by simp [bytesToU64s]
  | [_, _, _, _, _, _, _] => by simp [bytesToU64s]

/-- C3 amended: `Deserialize` never rejects any input; it copies the declared
`size` unchecked, truncates the `counts` and `words` byte blobs down to whole
elements (`⌊len/4⌋` and `⌊len/8⌋` entries), and resets absent fields to
empty — no consistency check between the fields is performed. -/
theorem C3_amended_no_validation (prior : BitVector) (msg : SerializedBV) :
    (deserializeInto prior msg).size = msg.size ∧
    (deserializeInto prior msg).counts.length = (msg.countsBytes.getD []).length / 4 ∧
    (deserializeInto prior msg).words.length = (msg.wordsBytes.getD []).length / 8 := by
  obtain ⟨sz, cb, wb⟩ := msg
  refine ⟨rfl, ?_, ?_⟩
  · cases cb with
    | none => simp [deserializeInto]
    | some bs => exact length_bytesToU32s bs
  · cases wb with
    | none => simp [deserializeInto]
    | some bs => exact length_bytesToU64s bs

/-! ## C4 — the invariants do not survive every mutation -/

/-- C4 evidence: growing a block-aligned `BitVector` (size 512, one set bit)
by `Resize(513, true)` leaves `counts = [0, 0]`: the filler count loop starts
at `start.block_idx + 1 = 2` and never writes `counts[1]`, which invariant 2
requires to be `counts[0] + popcount(block 0) = 1`.  The resulting vector
answers `CountSetBits() = 1` although bits 511 and 512 are both set. -/
theorem C4_resize_filler_breaks_counts :
    WF exAligned ∧
    (exAligned.resize 513 true).counts = [0, 0] ∧
    (exAligned.resize 513 true).isSet 511 = true ∧
    (exAligned.resize 513 true).isSet 512 = true ∧
    (exAligned.resize 513 true).countSetBits = 1 ∧
    ¬ ((exAligned.resize 513 true).counts.getD 1 0 =
        (exAligned.resize 513 true).counts.getD 0 0 +
          blockPop (exAligned.resize 513 true).words 0) := by
  refine ⟨by decide, by decide, by decide, by decide, by decide, by decide⟩

/-! ## C2 — IntersectRange result indexing -/

/-- C2 counterexample: on `v = [1,0,1,1,0]`, `IntersectRange(1, 4)` does not
produce a `BitVector` of size `min(4,5) - 1 = 3` equal to `[0,1,1]`: the
result keeps the original global indexing — its size is the clamped end 4,
bit 1 is clear and bits 2 and 3 are set. -/
theorem C2_counterexample :
    (exV.intersectRange 1 4).size = 4 ∧
    ¬ (exV.intersectRange 1 4).size = 3 ∧
    (exV.intersectRange 1 4).isSet 1 = false ∧
    (exV.intersectRange 1 4).isSet 2 = true ∧
    (exV.intersectRange 1 4).isSet 3 = true := by
  refine ⟨by decide, by decide, by decide, by decide, by decide⟩

end Perfetto
